import Mathlib

/-!
# go-github-codeowners: parsing, matching and owner resolution

A shallow embedding of `src/codeowners/codeowners.go` (namespace `V1`) and
`src/v2/codeowners/codeowners.go` (namespace `V2`).

* Go strings are lists of Unicode code points (`Str`), which is what the rune-based
  functions of package `strings` see on valid UTF-8 text.
* What the source calls outside itself (glob matching, mail-address parsing, the GitHub
  client) is the parameter `Env`; the directory service answers by functions.
* A function started with `go` is the list of its events (directory requests, sends on
  the two channels, starts of further functions) with the way it ended; the loops of
  `expandteam` take a bound on their passes. A call of `Match` is a step relation over
  the live goroutines, one step per event of one goroutine, in any interleaving, for the
  case that `ctx.Done()` never fires.
* `specTable` and `specClassify` are written from the specification, to be compared
  with the source.
-/

set_option linter.dupNamespace false

namespace GoCodeowners

/-- A Go string, as its sequence of runes. -/
abbrev Str := List Char

/-! ## The functions of package `strings` and `unicode` that the source calls -/

/-- Go `unicode.IsSpace`: the Latin-1 spaces `\t \n \v \f \r ' '` U+0085 U+00A0 and the
code points with the Unicode White_Space property. -/
def isSpace (c : Char) : Bool :=
  let n := c.toNat
  n == 0x09 || n == 0x0A || n == 0x0B || n == 0x0C || n == 0x0D || n == 0x20 ||
  n == 0x85 || n == 0xA0 || n == 0x1680 || (0x2000 ≤ n && n ≤ 0x200A) ||
  n == 0x2028 || n == 0x2029 || n == 0x202F || n == 0x205F || n == 0x3000

/-- Go `strings.Split(s, sep)` for a one-rune separator: the pieces between the
separators, always at least one piece. The first argument accumulates the current piece. -/
def splitAux (sep : Char) : Str → Str → List Str
  | cur, [] => [cur]
  | cur, c :: cs => if c = sep then cur :: splitAux sep [] cs else splitAux sep (cur ++ [c]) cs

/-- Go `strings.Split(s, "\n")` and the like. -/
def Split (s : Str) (sep : Char) : List Str := splitAux sep [] s

/-- Go `strings.Trim(s, cutset)` for a one-rune cutset: all leading and trailing
occurrences of that rune removed. -/
def Trim (s : Str) (cut : Char) : Str :=
  ((s.dropWhile (fun c => c == cut)).reverse.dropWhile (fun c => c == cut)).reverse

/-- The scan of Go `strings.Fields`: the first argument is the field being read. -/
def fieldsAux : Str → Str → List Str
  | cur, [] => if cur = [] then [] else [cur]
  | cur, c :: cs =>
    if isSpace c then
      (if cur = [] then fieldsAux [] cs else cur :: fieldsAux [] cs)
    else fieldsAux (cur ++ [c]) cs

/-- Go `strings.Fields(s)`: the maximal runs of non-space runes of `s`, in order. -/
def Fields (s : Str) : List Str := fieldsAux [] s

/-- Go `strings.Join(elems, sep)`. -/
def Join (elems : List Str) (sep : Str) : Str := sep.intercalate elems

/-- Go `strings.HasPrefix(s, prefix)`. -/
def HasPrefix (s pre : Str) : Bool := pre.isPrefixOf s

/-- Go `strings.Contains(s, substr)` for a one-rune `substr`. -/
def Contains (s : Str) (c : Char) : Bool := s.contains c

/-- Go `strings.Index(s, substr)` for a one-rune `substr`: the index of the first
occurrence, or `-1`. -/
def Index (s : Str) (c : Char) : Int :=
  if c ∈ s then (s.indexOf c : Int) else -1

/-- Go slice expression `s[lo:hi]`; `none` stands for the run-time panic on
indices out of range. -/
def sliceFromTo (s : Str) (lo hi : Int) : Option Str :=
  if 0 ≤ lo ∧ lo ≤ hi ∧ hi ≤ (s.length : Int) then
    some ((s.drop lo.toNat).take (hi.toNat - lo.toNat))
  else none

/-- Go slice expression `s[lo:]`; `none` stands for the run-time panic. -/
def sliceFrom (s : Str) (lo : Int) : Option Str :=
  if 0 ≤ lo ∧ lo ≤ (s.length : Int) then some (s.drop lo.toNat) else none

/-! ## Data model (both copies) -/

/-- The struct `codeOwner`: one line of a CODEOWNERS file. `owners` is a Go slice:
`none` is the nil slice, `some l` a non-nil slice with the elements `l`. -/
structure codeOwner where
  path : Str
  owners : Option (List Str)
  deriving DecidableEq

/-- The struct `CodeOwners`. -/
structure CodeOwners where
  owner : Str
  repo : Str
  patterns : List codeOwner
  deriving DecidableEq

/-- The elements of a Go slice of strings, where nil has none. -/
def elems (s : Option (List Str)) : List Str := s.getD []

/-- The method `codeOwner.String`: `fmt.Sprintf("%v %v", co.path, strings.Join(co.owners, " "))`. -/
def codeOwner.String (co : codeOwner) : Str :=
  co.path ++ [' '] ++ Join (elems co.owners) [' ']

/-- The method `CodeOwners.String`: the lines of the rules joined by `"\n"`. -/
def CodeOwners.String (co : CodeOwners) : Str :=
  Join (co.patterns.map codeOwner.String) ['\n']

/-- The body of `if len(words) > 1 { ... }` in `Get`: the rule appended for the
fields `words` of one line, if any. -/
def ruleOfWords (words : List Str) : Option codeOwner :=
  match words with
  | w0 :: w1 :: rest =>
    some { path := if w0 = ['*'] then ['*', '*'] else w0, owners := some (w1 :: rest) }
  | _ => none

/-- The statement `patterns = append(patterns, ...)` guarded by `len(words) > 1`. -/
def appendRule (patterns : List codeOwner) (words : List Str) : List codeOwner :=
  match ruleOfWords words with
  | some r => patterns ++ [r]
  | none => patterns

namespace V1

/-- One iteration of the line loop of `Get` in `src/codeowners/codeowners.go`. -/
def GetStep (patterns : List codeOwner) (line : Str) : List codeOwner :=
  appendRule patterns (Fields line)

/-- The line loop of `Get` (lines 187-201 of `src/codeowners/codeowners.go`). -/
def GetLoop (content : Str) : List codeOwner :=
  (Split content '\n').foldl GetStep []

end V1

namespace V2

/-- One iteration of the line loop of `Get` in `src/v2/codeowners/codeowners.go`:
trim the blanks, skip an empty line, skip a line whose first byte is `#`, else split
into fields and append a rule when there are at least two. -/
def GetStep (patterns : List codeOwner) (line : Str) : List codeOwner :=
  let l := Trim line ' '
  if l.length = 0 then patterns
  else if l.head? = some '#' then patterns
  else appendRule patterns (Fields l)

/-- The line loop of `Get` (lines 217-246 of `src/v2/codeowners/codeowners.go`). -/
def GetLoop (content : Str) : List codeOwner :=
  (Split content '\n').foldl GetStep []

end V2

/-! ## The external collaborators -/

/-- The fields of `github.User` that the source reads or writes; `none` is a nil pointer. -/
structure User where
  Login : Option Str
  ID : Option Int
  Email : Option Str
  deriving DecidableEq

/-- The fields of `github.Team` that the source reads. `OrganizationID` is the value of
`team.GetOrganization().GetID()`, which is `0` when the listing carries no organization.
`ID` and `Slug` are dereferenced by the source, so they are taken as always present. -/
structure Team where
  ID : Int
  Slug : Str
  OrganizationID : Int
  deriving DecidableEq

/-- The struct `mail.Address` of package `net/mail`. -/
structure MailAddress where
  Name : Str
  Address : Str
  deriving DecidableEq

/-- The error values the source creates or passes on, one constructor per site. -/
inductive GoError where
  /-- The value `errors.New("failed to find owner")` of `Match`. -/
  | failedToFindOwner
  /-- The value `"Do not understand user specification %q"` of `expandowners`. -/
  | doNotUnderstand (ownertext : Str)
  /-- The value `"Failed to find team matching %v"` of `expandteam`. -/
  | failedToFindTeam (teamname : Str)
  /-- The value `"Failed to find organization for team %s"` of `expandteam`. -/
  | failedToFindOrganization (teamname : Str)
  /-- An error returned by the GitHub client or by `mail.ParseAddress`, passed on as is. -/
  | external (msg : Str)
  deriving DecidableEq

/-- What the source calls outside itself: `doublestar.Match` (its error result is
dropped by `Match`), `mail.ParseAddress`, and the four GitHub client methods. List options
are reduced to the page number; a listing answers with its items and `resp.NextPage`.
`ListTeamMembersByID` answers with the logins of the members (`*user.Login`). -/
structure Env where
  doublestarMatch : Str → Str → Bool
  mailParseAddress : Str → Except Str MailAddress
  UsersGet : Str → Except Str User
  ListTeams : Str → Nat → Except Str (List Team × Nat)
  GetTeamBySlug : Str → Str → Except Str Team
  ListTeamMembersByID : Int → Int → Nat → Except Str (List Str × Nat)

/-- A request to the directory service (the GitHub client). -/
inductive Call where
  | UsersGet (name : Str)
  | ListTeams (org : Str) (page : Nat)
  | GetTeamBySlug (org slug : Str)
  | ListTeamMembersByID (orgid teamid : Int) (page : Nat)
  deriving DecidableEq

/-- The functions started with `go`. -/
inductive Task where
  | expandowners (ownertext : Str)
  | expandteam (fullteam : Str)
  | fetchuser (name : Str)
  | finduseremail (email : Str)
  deriving DecidableEq

/-- What a goroutine does, in program order: a directory request, a send on `ch.data`,
a send on `ch.err`, or `ch.wait.Add(1)` followed by `go t`. -/
inductive Event where
  | call (c : Call)
  | sendData (u : User)
  | sendErr (e : GoError)
  | spawn (t : Task)
  deriving DecidableEq

/-- How the execution of a function body ended: it returned (and its deferred
`ch.wait.Done()` ran), it panicked, or it was still running when the iteration budget
of its loops ran out. -/
inductive Status where
  | returned
  | panicked
  | running
  deriving DecidableEq

/-- The events of a function body and how it ended. -/
structure Run where
  events : List Event
  status : Status
  deriving DecidableEq

namespace V2

/-- The function `fetchuser`. -/
def fetchuser (env : Env) (name : Str) : Run :=
  match env.UsersGet name with
  | .error e => ⟨[.call (.UsersGet name), .sendErr (.external e)], .returned⟩
  | .ok user => ⟨[.call (.UsersGet name), .sendData user], .returned⟩

/-- The function `finduseremail`. -/
def finduseremail (env : Env) (email : Str) : Run :=
  match env.mailParseAddress email with
  | .error e => ⟨[.sendErr (.external e)], .returned⟩
  | .ok e => ⟨[.sendData { Login := none, ID := none, Email := some e.Address }], .returned⟩

/-- Lines 111-113 of `expandteam`: `split`, `orga` and `teamname`; `none` is the panic
of a slice expression out of range. -/
def teamSplit (fullteam : Str) : Option (Str × Str) :=
  let split := Index fullteam '/'
  match sliceFromTo fullteam 1 split, sliceFrom fullteam (split + 1) with
  | some orga, some teamname => some (orga, teamname)
  | _, _ => none

/-- One pass of the body of the team-listing loop of `expandteam` up to the test of
`resp.NextPage`: the events, and `none` when the function returned, else the new values
of `teamid` and `orgid` with `resp.NextPage`. -/
def teamsPage (env : Env) (orga teamname : Str) (page : Nat) (teamid orgid : Int) :
    List Event × Option (Int × Int × Nat) :=
  match env.ListTeams orga page with
  | .error e => ([.call (.ListTeams orga page), .sendErr (.external e)], none)
  | .ok (teams, nextPage) =>
    match teams.find? (fun team => teamname == team.Slug) with
    | none => ([.call (.ListTeams orga page)], some (teamid, orgid, nextPage))
    | some team =>
      if team.OrganizationID = 0 then
        match env.GetTeamBySlug orga teamname with
        | .error _ =>
          ([.call (.ListTeams orga page), .call (.GetTeamBySlug orga teamname),
            .sendErr (.failedToFindOrganization teamname)], none)
        | .ok tmpTeam =>
          ([.call (.ListTeams orga page), .call (.GetTeamBySlug orga teamname)],
            some (team.ID, tmpTeam.OrganizationID, nextPage))
      else ([.call (.ListTeams orga page)], some (team.ID, team.OrganizationID, nextPage))

/-- The team-listing loop of `expandteam` (lines 116-150) with `opts.Page = page`:
the events, and either how the function ended inside the loop or the values of
`teamid` and `orgid` after the loop. The first argument bounds the number of passes. -/
def teamsLoop (env : Env) (orga teamname : Str) :
    Nat → Nat → Int → Int → List Event × (Status ⊕ (Int × Int))
  | 0, _, _, _ => ([], .inl .running)
  | fuel + 1, page, teamid, orgid =>
    match teamsPage env orga teamname page teamid orgid with
    | (evs, none) => (evs, .inl .returned)
    | (evs, some (teamid1, orgid1, nextPage)) =>
      if nextPage = 0 then (evs, .inr (teamid1, orgid1))
      else
        let r := teamsLoop env orga teamname fuel nextPage teamid1 orgid1
        (evs ++ r.1, r.2)

/-- The membership loop of `expandteam` (lines 163-178) with `opt.Page = page`. The loop
body never assigns `opt.Page`, so the next pass asks for the same page. The first
argument bounds the number of passes. -/
def membersLoop (env : Env) (orgid teamid : Int) : Nat → Nat → Run
  | 0, _ => ⟨[], .running⟩
  | fuel + 1, page =>
    match env.ListTeamMembersByID orgid teamid page with
    | .error e =>
      ⟨[.call (.ListTeamMembersByID orgid teamid page), .sendErr (.external e)], .returned⟩
    | .ok (users, nextPage) =>
      let evs := Event.call (.ListTeamMembersByID orgid teamid page) ::
        users.map (fun login => Event.spawn (.fetchuser login))
      if nextPage = 0 then ⟨evs, .returned⟩
      else
        let r := membersLoop env orgid teamid fuel page
        ⟨evs ++ r.events, r.status⟩

/-- The function `expandteam`; `fuel` bounds the passes of each of its two loops. -/
def expandteam (env : Env) (fuel : Nat) (fullteam : Str) : Run :=
  match teamSplit fullteam with
  | none => ⟨[], .panicked⟩
  | some (orga, teamname) =>
    match teamsLoop env orga teamname fuel 0 0 0 with
    | (evs, .inl st) => ⟨evs, st⟩
    | (evs, .inr (teamid, orgid)) =>
      if teamid = 0 then ⟨evs ++ [.sendErr (.failedToFindTeam teamname)], .returned⟩
      else
        let r := membersLoop env orgid teamid fuel 0
        ⟨evs ++ r.events, r.status⟩

/-- The function `expandowners`. -/
def expandowners (ownertext : Str) : Run :=
  if HasPrefix ownertext ['@'] && Contains ownertext '/' then
    ⟨[.spawn (.expandteam ownertext)], .returned⟩
  else if HasPrefix ownertext ['@'] then
    match sliceFrom ownertext 1 with
    | some name => ⟨[.spawn (.fetchuser name)], .returned⟩
    | none => ⟨[], .panicked⟩
  else if Contains ownertext '@' then
    ⟨[.spawn (.finduseremail ownertext)], .returned⟩
  else ⟨[.sendErr (.doNotUnderstand ownertext)], .returned⟩

/-- The body run by `go t`. -/
def body (env : Env) (fuel : Nat) : Task → Run
  | .expandowners ownertext => expandowners ownertext
  | .expandteam fullteam => expandteam env fuel fullteam
  | .fetchuser name => fetchuser env name
  | .finduseremail email => finduseremail env email

/-- The function `Get`, given what `fetch` returned: the table and the error. -/
def Get (owner repo : Str) (fetched : Except Str Str) : CodeOwners × Option GoError :=
  match fetched with
  | .error e => ({ owner := owner, repo := repo, patterns := [] }, some (.external e))
  | .ok content => ({ owner := owner, repo := repo, patterns := GetLoop content }, none)

/-- The first loop of `Match` (lines 254-262): the value of `owners` after it,
starting from `owners`. -/
def selectOwners (env : Env) (patterns : List codeOwner) (path : Str)
    (owners : Option (List Str)) : Option (List Str) :=
  patterns.foldl
    (fun owners pattern => if env.doublestarMatch pattern.path path then pattern.owners else owners)
    owners

/-- The goroutines of one call of `Match` and what its collecting loop has received:
`goroutines` holds, for every started function that has not yet run `ch.wait.Done()`,
what it still has to do (so its length is the counter of the wait group); `calls` is
the log of the requests made to the directory service so far. -/
structure State where
  goroutines : List Run
  users : List User
  errorSlices : List GoError
  calls : List Call

/-- The state of `Match` after lines 267-276: one `go expandowners(ownertext, ctx, ch)`
per owner, nothing received yet. -/
def startState (env : Env) (fuel : Nat) (owners : List Str) : State :=
  { goroutines := owners.map (fun ownertext => body env fuel (.expandowners ownertext)),
    users := [], errorSlices := [], calls := [] }

/-- Lines 253-276 of `Match`: either the early return with `(nil, errorSlices)`, or the
state after the goroutines of the owners are started. -/
def MatchStart (env : Env) (fuel : Nat) (co : CodeOwners) (path : Str) :
    Except (List User × List GoError) State :=
  match selectOwners env co.patterns path none with
  | none => .error ([], [.failedToFindOwner])
  | some owners => .ok (startState env fuel owners)

/-- One step of the goroutines of `Match` while `ctx.Done()` does not fire. The channels
are unbuffered and the collecting loop of `Match` is always ready to receive, so a send
is one step that appends to `users` or `errorSlices`. A function that has returned
leaves by `ch.wait.Done()`. -/
inductive Step (env : Env) (fuel : Nat) : State → State → Prop where
  | call (pre post : List Run) (c : Call) (evs : List Event) (st : Status)
      (users : List User) (errs : List GoError) (calls : List Call) :
      Step env fuel ⟨pre ++ ⟨.call c :: evs, st⟩ :: post, users, errs, calls⟩
        ⟨pre ++ ⟨evs, st⟩ :: post, users, errs, calls ++ [c]⟩
  | sendData (pre post : List Run) (u : User) (evs : List Event) (st : Status)
      (users : List User) (errs : List GoError) (calls : List Call) :
      Step env fuel ⟨pre ++ ⟨.sendData u :: evs, st⟩ :: post, users, errs, calls⟩
        ⟨pre ++ ⟨evs, st⟩ :: post, users ++ [u], errs, calls⟩
  | sendErr (pre post : List Run) (e : GoError) (evs : List Event) (st : Status)
      (users : List User) (errs : List GoError) (calls : List Call) :
      Step env fuel ⟨pre ++ ⟨.sendErr e :: evs, st⟩ :: post, users, errs, calls⟩
        ⟨pre ++ ⟨evs, st⟩ :: post, users, errs ++ [e], calls⟩
  | spawn (pre post : List Run) (t : Task) (evs : List Event) (st : Status)
      (users : List User) (errs : List GoError) (calls : List Call) :
      Step env fuel ⟨pre ++ ⟨.spawn t :: evs, st⟩ :: post, users, errs, calls⟩
        ⟨pre ++ ⟨evs, st⟩ :: post ++ [body env fuel t], users, errs, calls⟩
  | done (pre post : List Run) (users : List User) (errs : List GoError)
      (calls : List Call) :
      Step env fuel ⟨pre ++ ⟨[], .returned⟩ :: post, users, errs, calls⟩
        ⟨pre ++ post, users, errs, calls⟩

/-- The states reached from `s` by any interleaving of the goroutines. -/
def Reaches (env : Env) (fuel : Nat) (s t : State) : Prop :=
  Relation.ReflTransGen (Step env fuel) s t

/-- The results of `Match` while `ctx.Done()` does not fire: the early return, or
what the collecting loop holds once every goroutine has run `ch.wait.Done()` and both
channels are closed. -/
inductive MatchReturns (env : Env) (fuel : Nat) (co : CodeOwners) (path : Str) :
    List User × List GoError → Prop where
  | early (res : List User × List GoError) :
      MatchStart env fuel co path = .error res → MatchReturns env fuel co path res
  | collected (s0 s : State) :
      MatchStart env fuel co path = .ok s0 → Reaches env fuel s0 s → s.goroutines = [] →
      MatchReturns env fuel co path (s.users, s.errorSlices)

end V2

/-! ## The parser as the specification words it -/

/-- The rule table as the specification describes it: one rule per line with at least
two whitespace-separated tokens, in line order; the pattern is token 0, with a bare `*`
replaced by `**`, and the specifiers are the remaining tokens. -/
def specTable (text : Str) : List codeOwner :=
  ((Split text '\n').filter (fun line => 2 ≤ (Fields line).length)).map
    (fun line =>
      { path := if (Fields line).headD [] = ['*'] then ['*', '*'] else (Fields line).headD [],
        owners := some ((Fields line).tail) })

/-- The first non-whitespace rune of a line, if any. -/
def firstNonSpace (line : Str) : Option Char := (line.dropWhile isSpace).head?

/-- The owner tokens as the specification classifies them. -/
inductive OwnerSpecifier where
  | TeamRef (org slug : Str)
  | UserRef (login : Str)
  | EmailRef (address : Str)
  deriving DecidableEq

/-- The classification of the specification: a token that starts with `@` and contains `/`
is a team whose org is the text between the leading `@` and the first `/` and whose slug
is the text after that `/`; else a token that starts with `@` is a user whose login is
the rest; else a token that contains `@` is an email address; else there is no class. -/
def specClassify (token : Str) : Option OwnerSpecifier :=
  if token.head? = some '@' ∧ '/' ∈ token then
    some (.TeamRef ((token.drop 1).takeWhile (fun c => c != '/'))
      (((token.drop 1).dropWhile (fun c => c != '/')).drop 1))
  else if token.head? = some '@' then some (.UserRef (token.drop 1))
  else if '@' ∈ token then some (.EmailRef token)
  else none

/-- The pages of the team listing of `org`: `pages` is the sequence of page numbers that
starts at `page` and follows `resp.NextPage` until a page answers `NextPage = 0`,
every request on the way succeeding. -/
def isListing (env : Env) (org : Str) : Nat → List Nat → Bool
  | _, [] => false
  | page, q :: rest =>
    q == page &&
      match env.ListTeams org page with
      | .error _ => false
      | .ok (_, nextPage) => if nextPage = 0 then rest.isEmpty else isListing env org nextPage rest

/-- No team on page `page` of the listing of `org` has the slug `slug`. -/
def slugAbsent (env : Env) (org slug : Str) (page : Nat) : Bool :=
  match env.ListTeams org page with
  | .error _ => true
  | .ok (teams, _) => teams.all (fun team => !(slug == team.Slug))

/-- A sample environment for the examples. Organisation `o` lists its teams on two pages
(team `a` on page 0, which announces page 2, and team `t` with id 7 on page 2); every team
has two pages of members (`x` on page 0, which announces page 2, and `y` on page 2); every
login is a user; `**` matches every path and `docs/*` the paths under `docs/`. The
address parser stands for `mail.ParseAddress` on the two shapes used in the examples: an
address between angle brackets is returned without them, a bare one as it is. -/
def sampleEnv : Env where
  doublestarMatch := fun pattern path =>
    pattern == "**".toList || (pattern == "docs/*".toList && "docs/".toList.isPrefixOf path)
  mailParseAddress := fun s =>
    if s.head? = some '<' ∧ s.getLast? = some '>' then .ok ⟨[], (s.drop 1).dropLast⟩
    else if '@' ∈ s ∧ '<' ∉ s ∧ '>' ∉ s then .ok ⟨[], s⟩
    else .error "mail: no angle-addr".toList
  UsersGet := fun name => .ok ⟨some name, some 1, none⟩
  ListTeams := fun org page =>
    if org = "o".toList then
      (if page = 0 then .ok ([⟨1, "a".toList, 5⟩], 2) else .ok ([⟨7, "t".toList, 5⟩], 0))
    else .error "404 Not Found".toList
  GetTeamBySlug := fun _ _ => .error "404 Not Found".toList
  ListTeamMembersByID := fun _ _ page =>
    if page = 0 then .ok (["x".toList], 2) else .ok (["y".toList], 0)

/-! ## Accounting for the goroutines of `Match` -/

/-- The depth of the functions a task may start: `expandowners` starts `expandteam`,
`fetchuser` or `finduseremail`; `expandteam` starts `fetchuser`; the others start none. -/
def rank : Task → Nat
  | .expandowners _ => 2
  | .expandteam _ => 1
  | .fetchuser _ => 0
  | .finduseremail _ => 0

/-- The requests and sends still to come from a goroutine that has the events `evs` left,
when a started task `t` accounts for `T t`. -/
def owed (T : Task → Multiset Event) : List Event → Multiset Event
  | [] => 0
  | .call c :: evs => .call c ::ₘ owed T evs
  | .sendData u :: evs => .sendData u ::ₘ owed T evs
  | .sendErr e :: evs => .sendErr e ::ₘ owed T evs
  | .spawn t :: evs => T t + owed T evs

/-- The requests and sends of a task and of the tasks it starts, down to the given depth. -/
def total (env : Env) (fuel : Nat) : Nat → Task → Multiset Event
  | 0, _ => 0
  | d + 1, t => owed (total env fuel d) (V2.body env fuel t).events

/-- The requests and sends of a task and of all the tasks started below it. -/
def treeEvents (env : Env) (fuel : Nat) (t : Task) : Multiset Event := total env fuel 3 t

/-- What a state has logged and received so far, as events. -/
def seen (s : V2.State) : Multiset Event :=
  ↑(s.users.map Event.sendData) + ↑(s.errorSlices.map Event.sendErr) + ↑(s.calls.map Event.call)

/-- What the live goroutines of a state still owe. -/
def pending (T : Task → Multiset Event) (gs : List Run) : Multiset Event :=
  (gs.map (fun g => owed T g.events)).sum

/-- The identity carried by a send on `ch.data`. -/
def dataOf : Event → Option User
  | .sendData u => some u
  | _ => none

/-- The error carried by a send on `ch.err`. -/
def errOf : Event → Option GoError
  | .sendErr e => some e
  | _ => none

/-- The request of a directory call. -/
def callOf : Event → Option Call
  | .call c => some c
  | _ => none

/-- The bodies of the tasks started by the events `evs`, in order. -/
def spawned (env : Env) (fuel : Nat) : List Event → List Run
  | [] => []
  | .spawn t :: evs => V2.body env fuel t :: spawned env fuel evs
  | _ :: evs => spawned env fuel evs

/-- The task returns within the budget of its loops, and so does every task started
below it, down to the given depth. -/
def finishesWithin (env : Env) (fuel : Nat) : Nat → Task → Bool
  | 0, _ => false
  | d + 1, t =>
    (V2.body env fuel t).status == .returned &&
      (V2.body env fuel t).events.all (fun e =>
        match e with
        | .spawn t1 => finishesWithin env fuel d t1
        | _ => true)

/-- The goroutine returns, and every task it starts finishes within depth `d`. -/
def settles (env : Env) (fuel : Nat) (d : Nat) (g : Run) : Prop :=
  g.status = .returned ∧ ∀ t, Event.spawn t ∈ g.events → finishesWithin env fuel d t = true

/-- The number of steps a goroutine with the events `evs` left still causes before its
`ch.wait.Done()`, when a started task `t` accounts for `W t` steps. -/
def work (W : Task → Nat) : List Event → Nat
  | [] => 0
  | .call _ :: evs => 1 + work W evs
  | .sendData _ :: evs => 1 + work W evs
  | .sendErr _ :: evs => 1 + work W evs
  | .spawn t :: evs => 1 + W t + work W evs

/-- The number of steps of a task and of the tasks it starts, down to the given depth,
each with its `ch.wait.Done()`. -/
def taskWork (env : Env) (fuel : Nat) : Nat → Task → Nat
  | 0, _ => 0
  | d + 1, t => 1 + work (taskWork env fuel d) (V2.body env fuel t).events

/-- The number of steps the live goroutines of a state can still take. -/
def stepsLeft (env : Env) (fuel : Nat) (s : V2.State) : Nat :=
  (s.goroutines.map (fun g => 1 + work (taskWork env fuel 3) g.events)).sum

/-- A token as `strings.Fields` returns it: not empty and without whitespace. -/
def isToken (w : Str) : Prop := w ≠ [] ∧ ∀ c ∈ w, isSpace c = false

/-- A rule as the line loop of `Get` builds it from a line that does not start a comment:
the pattern is a token other than a bare `*` that does not begin with `#`, and the owners
are a non-nil slice of at least one token. -/
def wellFormed (r : codeOwner) : Prop :=
  isToken r.path ∧ r.path ≠ ['*'] ∧ r.path.head? ≠ some '#' ∧
    ∃ w ws, r.owners = some (w :: ws) ∧ ∀ x ∈ w :: ws, isToken x

/-! # Theorems -/

/-! ## Facts about the string functions -/

theorem isSpace_blank : isSpace ' ' = true := by decide

theorem isSpace_hash : isSpace '#' = false := by decide

theorem Fields_nil : Fields [] = [] := by simp [Fields, fieldsAux]

theorem Fields_dropWhile_blank (s : Str) :
    Fields (s.dropWhile (fun c => c == ' ')) = Fields s := by
  induction s with
  | nil => rfl
  | cons c cs ih =>
    by_cases hc : c = ' '
    · subst hc
      simp only [List.dropWhile_cons, beq_self_eq_true, if_true]
      rw [ih]
      simp [Fields, fieldsAux, isSpace_blank]
    · have : (c == ' ') = false := by simpa using hc
      simp [List.dropWhile_cons, this]

theorem fieldsAux_concat_blank (s cur : Str) :
    fieldsAux cur (s ++ [' ']) = fieldsAux cur s := by
  induction s generalizing cur with
  | nil => by_cases h : cur = [] <;> simp [fieldsAux, isSpace_blank, h]
  | cons c cs ih =>
    by_cases hc : isSpace c = true
    · by_cases h : cur = [] <;> simp [fieldsAux, hc, h, ih]
    · simp [fieldsAux, hc, ih]

theorem Fields_rdropWhile_blank (s : Str) :
    Fields ((s.reverse.dropWhile (fun c => c == ' ')).reverse) = Fields s := by
  induction s using List.reverseRecOn with
  | nil => rfl
  | append_singleton xs a ih =>
    by_cases ha : a = ' '
    · subst ha
      simp only [List.reverse_append, List.reverse_cons, List.reverse_nil, List.nil_append,
        List.singleton_append, List.dropWhile_cons, beq_self_eq_true, if_true]
      rw [ih]
      exact (fieldsAux_concat_blank xs []).symm
    · have : (a == ' ') = false := by simpa using ha
      simp [List.dropWhile_cons, this]

theorem Fields_Trim_blank (s : Str) : Fields (Trim s ' ') = Fields s := by
  unfold Trim
  rw [Fields_rdropWhile_blank, Fields_dropWhile_blank]

theorem head_dropWhile_blank_hash (line : Str)
    (h : (line.dropWhile (fun c => c == ' ')).head? = some '#') :
    firstNonSpace line = some '#' := by
  unfold firstNonSpace
  induction line with
  | nil => simp at h
  | cons c cs ih =>
    by_cases hc : c = ' '
    · subst hc
      simp only [List.dropWhile_cons, beq_self_eq_true, if_true] at h
      simp only [List.dropWhile_cons, isSpace_blank, if_true]
      exact ih h
    · have hb : (c == ' ') = false := by simpa using hc
      simp only [List.dropWhile_cons, hb] at h
      simp at h
      subst h
      simp [List.dropWhile_cons, isSpace_hash]

theorem head_Trim_hash (line : Str) (h : (Trim line ' ').head? = some '#') :
    firstNonSpace line = some '#' := by
  apply head_dropWhile_blank_hash
  have hp : Trim line ' ' <+: line.dropWhile (fun c => c == ' ') :=
    List.rdropWhile_prefix (fun c => c == ' ') _
  obtain ⟨t, ht⟩ := hp
  rw [← ht]
  cases hT : Trim line ' ' with
  | nil => rw [hT] at h; simp at h
  | cons a as => rw [hT] at h; simpa using h

theorem V2_GetStep_eq (patterns : List codeOwner) (line : Str)
    (h : firstNonSpace line ≠ some '#') :
    V2.GetStep patterns line = V1.GetStep patterns line := by
  unfold V2.GetStep V1.GetStep
  by_cases h0 : (Trim line ' ').length = 0
  · have hnil : Trim line ' ' = [] := List.length_eq_zero.mp h0
    have hf : Fields line = [] := by rw [← Fields_Trim_blank, hnil, Fields_nil]
    simp [h0, hf, appendRule, ruleOfWords]
  · by_cases h1 : (Trim line ' ').head? = some '#'
    · exact absurd (head_Trim_hash line h1) h
    · simp only [h0, h1, if_false]
      rw [Fields_Trim_blank]

theorem foldl_V2_GetStep_eq (lines : List Str) (init : List codeOwner)
    (h : ∀ line ∈ lines, firstNonSpace line ≠ some '#') :
    lines.foldl V2.GetStep init = lines.foldl V1.GetStep init := by
  induction lines generalizing init with
  | nil => rfl
  | cons l ls ih =>
    simp only [List.foldl_cons]
    rw [V2_GetStep_eq init l (h l (by simp))]
    exact ih _ (fun line hl => h line (by simp [hl]))

theorem foldl_V1_GetStep (lines : List Str) (init : List codeOwner) :
    lines.foldl V1.GetStep init =
      init ++ lines.filterMap (fun line => ruleOfWords (Fields line)) := by
  induction lines generalizing init with
  | nil => simp
  | cons l ls ih =>
    simp only [List.foldl_cons, List.filterMap_cons]
    rw [ih]
    unfold V1.GetStep appendRule
    cases hr : ruleOfWords (Fields l) <;> simp

theorem filterMap_ruleOfWords (lines : List Str) :
    lines.filterMap (fun line => ruleOfWords (Fields line)) =
      (lines.filter (fun line => 2 ≤ (Fields line).length)).map
        (fun line =>
          { path := if (Fields line).headD [] = ['*'] then ['*', '*'] else (Fields line).headD [],
            owners := some ((Fields line).tail) }) := by
  induction lines with
  | nil => rfl
  | cons l ls ih =>
    rw [List.filterMap_cons, ih]
    rcases hf : Fields l with _ | ⟨w0, _ | ⟨w1, rest⟩⟩
    · simp [ruleOfWords, List.filter_cons, hf]
    · simp [ruleOfWords, List.filter_cons, hf]
    · simp [ruleOfWords, List.filter_cons, hf]

theorem V1_GetLoop_eq (text : Str) : V1.GetLoop text = specTable text := by
  unfold V1.GetLoop specTable
  rw [foldl_V1_GetStep, filterMap_ruleOfWords]
  simp

/-- C5: on a text in which no line has `#` as its first non-whitespace rune, both copies
of the line loop of `Get` build the table the specification describes: one rule per line
with at least two tokens, in line order, pattern token 0 (with `*` replaced by `**`) and
specifiers the remaining tokens; hence the two copies build equal tables. -/
theorem C5_parser_table (text : Str)
    (h : ∀ line ∈ Split text '\n', firstNonSpace line ≠ some '#') :
    V2.GetLoop text = specTable text ∧ V1.GetLoop text = specTable text ∧
      V2.GetLoop text = V1.GetLoop text := by
  have h21 : V2.GetLoop text = V1.GetLoop text := by
    unfold V2.GetLoop V1.GetLoop
    exact foldl_V2_GetStep_eq _ _ h
  exact ⟨h21.trans (V1_GetLoop_eq text), V1_GetLoop_eq text, h21⟩

/-- C5 at the text `"* @a\n\tdocs/*  @b @c \nlonely\n"`. -/
theorem C5_parser_table_witness :
    (∀ line ∈ Split "* @a\n\tdocs/*  @b @c \nlonely\n".toList '\n', firstNonSpace line ≠ some '#') ∧
    V2.GetLoop "* @a\n\tdocs/*  @b @c \nlonely\n".toList =
      [⟨"**".toList, some ["@a".toList]⟩, ⟨"docs/*".toList, some ["@b".toList, "@c".toList]⟩] ∧
    V2.GetLoop "* @a\n\tdocs/*  @b @c \nlonely\n".toList =
      specTable "* @a\n\tdocs/*  @b @c \nlonely\n".toList :=
  ⟨by decide, by decide, (C5_parser_table _ (by decide)).1⟩

/-! ## Rendering and parsing back -/

theorem fieldsAux_tokens (s : Str) :
    ∀ cur : Str, (∀ c ∈ cur, isSpace c = false) → ∀ w ∈ fieldsAux cur s, isToken w := by
  induction s with
  | nil =>
    intro cur hcur w hw
    by_cases h : cur = []
    · simp [fieldsAux, h] at hw
    · simp only [fieldsAux, h, if_false, List.mem_singleton] at hw
      subst hw
      exact ⟨h, hcur⟩
  | cons c cs ih =>
    intro cur hcur w hw
    by_cases hc : isSpace c = true
    · by_cases h : cur = []
      · simp only [fieldsAux, hc, h, if_true] at hw
        exact ih [] (by simp) w hw
      · simp only [fieldsAux, hc, h, if_true, if_false, List.mem_cons] at hw
        rcases hw with hw | hw
        · subst hw; exact ⟨h, hcur⟩
        · exact ih [] (by simp) w hw
    · simp only [fieldsAux, hc] at hw
      refine ih (cur ++ [c]) ?_ w hw
      intro x hx
      rcases List.mem_append.mp hx with hx | hx
      · exact hcur x hx
      · simp only [List.mem_singleton] at hx
        subst hx
        simpa using hc

theorem Fields_tokens (s : Str) : ∀ w ∈ Fields s, isToken w :=
  fieldsAux_tokens s [] (by simp)

theorem fieldsAux_head (s : Str) :
    ∀ (cur : Str) (a : Char), ∃ w rest, fieldsAux (a :: cur) s = (a :: w) :: rest := by
  induction s with
  | nil => intro cur a; exact ⟨cur, [], by simp [fieldsAux]⟩
  | cons c cs ih =>
    intro cur a
    by_cases hc : isSpace c = true
    · exact ⟨cur, fieldsAux [] cs, by simp [fieldsAux, hc]⟩
    · obtain ⟨w, rest, h⟩ := ih (cur ++ [c]) a
      exact ⟨w, rest, by simpa [fieldsAux, hc] using h⟩

theorem Fields_head (s : Str) (w0 : Str) (rest : List Str) (h : Fields s = w0 :: rest) :
    w0.head? = firstNonSpace s := by
  unfold Fields at h
  unfold firstNonSpace
  induction s with
  | nil => simp [fieldsAux] at h
  | cons c cs ih =>
    by_cases hc : isSpace c = true
    · simp only [fieldsAux, hc, if_true] at h
      simp only [List.dropWhile_cons, hc, if_true]
      exact ih h
    · simp only [fieldsAux, hc, List.nil_append] at h
      obtain ⟨w, rest1, hw⟩ := fieldsAux_head cs [] c
      rw [hw] at h
      have : w0 = c :: w := by
        have := (List.cons.inj h).1
        exact this.symm
      subst this
      simp [List.dropWhile_cons, hc]

theorem fieldsAux_token (w : Str) (hw : ∀ c ∈ w, isSpace c = false) :
    ∀ (cur s : Str), fieldsAux cur (w ++ s) = fieldsAux (cur ++ w) s := by
  induction w with
  | nil => intro cur s; simp
  | cons a as ih =>
    intro cur s
    have ha : isSpace a = false := hw a (List.mem_cons_self _ _)
    have := ih (fun c hc => hw c (List.mem_cons_of_mem _ hc)) (cur ++ [a]) s
    simp only [List.cons_append, fieldsAux, ha]
    simpa using this

theorem Fields_Join_tokens (w : Str) (ws : List Str) (h : ∀ x ∈ w :: ws, isToken x) :
    Fields (Join (w :: ws) [' ']) = w :: ws := by
  unfold Fields Join
  induction ws generalizing w with
  | nil =>
    have hw := h w (List.mem_cons_self _ _)
    have := fieldsAux_token w hw.2 [] []
    simp only [List.append_nil, List.nil_append] at this
    simp only [List.intercalate, List.intersperse, List.flatten, List.append_nil]
    rw [this]
    simp [fieldsAux, hw.1]
  | cons v vs ih =>
    have hw := h w (List.mem_cons_self _ _)
    have hrest := ih v (fun x hx => h x (List.mem_cons_of_mem _ hx))
    have e : [' '].intercalate (w :: v :: vs) = w ++ ' ' :: [' '].intercalate (v :: vs) := by
      simp [List.intercalate, List.intersperse]
    rw [e, fieldsAux_token w hw.2 [] _]
    simp only [List.nil_append, fieldsAux, isSpace_blank, if_true, hw.1, if_false]
    rw [hrest]

theorem splitAux_line (l : Str) (hl : '\n' ∉ l) :
    ∀ (cur s : Str), splitAux '\n' cur (l ++ s) = splitAux '\n' (cur ++ l) s := by
  induction l with
  | nil => intro cur s; simp
  | cons a as ih =>
    intro cur s
    have ha : a ≠ '\n' := fun h => hl (by simp [h])
    have := ih (fun h => hl (List.mem_cons_of_mem _ h)) (cur ++ [a]) s
    simp only [List.cons_append, splitAux, ha, if_false]
    simpa using this

theorem Split_Join_lines (l : Str) (ls : List Str) (h : ∀ x ∈ l :: ls, '\n' ∉ x) :
    Split (Join (l :: ls) ['\n']) '\n' = l :: ls := by
  unfold Split Join
  induction ls generalizing l with
  | nil =>
    have := splitAux_line l (h l (List.mem_cons_self _ _)) [] []
    simp only [List.append_nil, List.nil_append] at this
    simp only [List.intercalate, List.intersperse, List.flatten, List.append_nil]
    rw [this]
    simp [splitAux]
  | cons v vs ih =>
    have hrest := ih v (fun x hx => h x (List.mem_cons_of_mem _ hx))
    have e : ['\n'].intercalate (l :: v :: vs) = l ++ '\n' :: ['\n'].intercalate (v :: vs) := by
      simp [List.intercalate, List.intersperse]
    rw [e, splitAux_line l (h l (List.mem_cons_self _ _)) [] _]
    simp only [List.nil_append, splitAux, if_true]
    rw [hrest]

theorem Join_cons_cons (sep w v : Str) (vs : List Str) :
    Join (w :: v :: vs) sep = w ++ sep ++ Join (v :: vs) sep := by
  simp [Join, List.intercalate, List.intersperse]

theorem mem_Join (sep : Str) (c : Char) (xs : List Str) (h : c ∈ Join xs sep) :
    c ∈ sep ∨ ∃ x ∈ xs, c ∈ x := by
  induction xs with
  | nil => simp [Join, List.intercalate, List.intersperse] at h
  | cons w ws ih =>
    cases ws with
    | nil =>
      have : Join [w] sep = w := by simp [Join, List.intercalate, List.intersperse]
      rw [this] at h
      exact Or.inr ⟨w, by simp, h⟩
    | cons v vs =>
      rw [Join_cons_cons] at h
      rcases List.mem_append.mp h with h | h
      · rcases List.mem_append.mp h with h | h
        · exact Or.inr ⟨w, by simp, h⟩
        · exact Or.inl h
      · rcases ih h with h | ⟨x, hx, hc⟩
        · exact Or.inl h
        · exact Or.inr ⟨x, List.mem_cons_of_mem _ hx, hc⟩

theorem String_eq_Join (r : codeOwner) (w : Str) (ws : List Str)
    (h : r.owners = some (w :: ws)) :
    codeOwner.String r = Join (r.path :: w :: ws) [' '] := by
  rw [Join_cons_cons]
  simp [codeOwner.String, elems, h]

theorem String_no_newline (r : codeOwner) (h : wellFormed r) : '\n' ∉ codeOwner.String r := by
  obtain ⟨hp, _, _, w, ws, ho, htok⟩ := h
  rw [String_eq_Join r w ws ho]
  intro hmem
  rcases mem_Join _ _ _ hmem with h1 | ⟨x, hx, hc⟩
  · simp at h1
  · have hx2 : isToken x := by
      rcases List.mem_cons.mp hx with hx | hx
      · rw [hx]; exact hp
      · exact htok x hx
    have := hx2.2 _ hc
    exact absurd this (by decide)

theorem V2_GetStep_String (acc : List codeOwner) (r : codeOwner) (h : wellFormed r) :
    V2.GetStep acc (codeOwner.String r) = acc ++ [r] := by
  obtain ⟨hp, hstar, hhash, w, ws, ho, htok⟩ := h
  have hall : ∀ x ∈ r.path :: w :: ws, isToken x := by
    intro x hx
    rcases List.mem_cons.mp hx with hx | hx
    · rw [hx]; exact hp
    · exact htok x hx
  have hF : Fields (codeOwner.String r) = r.path :: w :: ws := by
    rw [String_eq_Join r w ws ho]
    exact Fields_Join_tokens r.path (w :: ws) hall
  have hFT : Fields (Trim (codeOwner.String r) ' ') = r.path :: w :: ws := by
    rw [Fields_Trim_blank, hF]
  have h0 : ¬ (Trim (codeOwner.String r) ' ').length = 0 := by
    intro h0
    rw [List.length_eq_zero.mp h0, Fields_nil] at hFT
    exact absurd hFT (by simp)
  have h1 : ¬ (Trim (codeOwner.String r) ' ').head? = some '#' := by
    intro h1
    have := head_Trim_hash _ h1
    rw [← Fields_head _ _ _ hF] at this
    exact hhash this
  unfold V2.GetStep
  simp only [h0, h1, if_false, hFT, appendRule, ruleOfWords, hstar]
  congr 1
  obtain ⟨p, o⟩ := r
  simp only at ho
  subst ho
  rfl

theorem V2_foldl_GetStep_String (ps acc : List codeOwner) (h : ∀ r ∈ ps, wellFormed r) :
    (ps.map codeOwner.String).foldl V2.GetStep acc = acc ++ ps := by
  induction ps generalizing acc with
  | nil => simp
  | cons p ps ih =>
    simp only [List.map_cons, List.foldl_cons]
    rw [V2_GetStep_String acc p (h p (List.mem_cons_self _ _)),
      ih _ (fun r hr => h r (List.mem_cons_of_mem _ hr))]
    simp

theorem V2_GetLoop_String (owner repo : Str) (ps : List codeOwner)
    (h : ∀ r ∈ ps, wellFormed r) :
    V2.GetLoop (CodeOwners.String ⟨owner, repo, ps⟩) = ps := by
  unfold V2.GetLoop CodeOwners.String
  cases ps with
  | nil => rfl
  | cons p ps =>
    simp only [List.map_cons]
    rw [Split_Join_lines]
    · have := V2_foldl_GetStep_String (p :: ps) [] h
      simpa using this
    · intro x hx
      have hx2 : x ∈ (p :: ps).map codeOwner.String := by simpa using hx
      obtain ⟨r, hr, rfl⟩ := List.mem_map.mp hx2
      exact String_no_newline r (h r hr)

theorem appendRule_wellFormed (acc : List codeOwner) (words : List Str)
    (hacc : ∀ r ∈ acc, wellFormed r) (htok : ∀ w ∈ words, isToken w)
    (hhash : ∀ w0 rest, words = w0 :: rest → w0.head? ≠ some '#') :
    ∀ r ∈ appendRule acc words, wellFormed r := by
  unfold appendRule ruleOfWords
  rcases words with _ | ⟨w0, _ | ⟨w1, rest⟩⟩
  · exact hacc
  · exact hacc
  · intro r hr
    simp only [List.mem_append, List.mem_singleton] at hr
    rcases hr with hr | hr
    · exact hacc r hr
    · subst hr
      have h0 := htok w0 (by simp)
      have hh := hhash w0 (w1 :: rest) rfl
      refine ⟨?_, ?_, ?_, w1, rest, rfl, fun x hx => htok x (List.mem_cons_of_mem _ hx)⟩
      · by_cases hs : w0 = ['*']
        · simp only [hs, if_true]
          exact ⟨by simp, by decide⟩
        · simpa [hs] using h0
      · by_cases hs : w0 = ['*']
        · simp [hs]
        · simp [hs]
      · by_cases hs : w0 = ['*']
        · simp [hs]
        · simpa [hs] using hh

theorem V2_GetStep_wellFormed (acc : List codeOwner) (line : Str)
    (hacc : ∀ r ∈ acc, wellFormed r)
    (hline : firstNonSpace line = some '#' → (Trim line ' ').head? = some '#') :
    ∀ r ∈ V2.GetStep acc line, wellFormed r := by
  unfold V2.GetStep
  simp only
  split
  · exact hacc
  · split
    · exact hacc
    · rename_i h1
      apply appendRule_wellFormed acc _ hacc (Fields_tokens _)
      intro w0 rest hw hh
      rw [Fields_head _ w0 rest (by rw [← Fields_Trim_blank]; exact hw)] at hh
      exact h1 (hline hh)

theorem V2_GetLoop_wellFormed (text : Str)
    (h : ∀ line ∈ Split text '\n',
      firstNonSpace line = some '#' → (Trim line ' ').head? = some '#') :
    ∀ r ∈ V2.GetLoop text, wellFormed r := by
  unfold V2.GetLoop
  have key : ∀ (lines : List Str) (acc : List codeOwner),
      (∀ r ∈ acc, wellFormed r) →
      (∀ line ∈ lines, firstNonSpace line = some '#' → (Trim line ' ').head? = some '#') →
      ∀ r ∈ lines.foldl V2.GetStep acc, wellFormed r := by
    intro lines
    induction lines with
    | nil => intro acc hacc _; exact hacc
    | cons l ls ih =>
      intro acc hacc hl
      exact ih _ (V2_GetStep_wellFormed acc l hacc (hl l (List.mem_cons_self _ _)))
        (fun line hline => hl line (List.mem_cons_of_mem _ hline))
  exact key _ [] (by simp) h

/-- The round trip of C3 on the texts it holds for: when every line whose first
non-whitespace rune is `#` has only blanks before that `#` (so that the line loop of `Get`
skips it), parsing the rendering of the parsed table gives the parsed table back. -/
theorem round_trip_blank_indented_comments (owner repo text : Str)
    (h : ∀ line ∈ Split text '\n',
      firstNonSpace line = some '#' → (Trim line ' ').head? = some '#') :
    V2.GetLoop (CodeOwners.String ⟨owner, repo, V2.GetLoop text⟩) = V2.GetLoop text :=
  V2_GetLoop_String owner repo _ (V2_GetLoop_wellFormed text h)

/-- The table of C4 on the texts it is empty for: when every line is whitespace only or
has only blanks before a leading `#`, the line loop of `Get` builds no rule. -/
theorem V2_GetLoop_comments_only (text : Str)
    (h : ∀ line ∈ Split text '\n', Fields line = [] ∨ (Trim line ' ').head? = some '#') :
    V2.GetLoop text = [] := by
  unfold V2.GetLoop
  have key : ∀ lines : List Str,
      (∀ line ∈ lines, Fields line = [] ∨ (Trim line ' ').head? = some '#') →
      lines.foldl V2.GetStep [] = [] := by
    intro lines
    induction lines with
    | nil => intro _; rfl
    | cons l ls ih =>
      intro hl
      have hstep : V2.GetStep [] l = [] := by
        unfold V2.GetStep
        simp only
        split
        · rfl
        · split
          · rfl
          · rename_i h1
            rcases hl l (List.mem_cons_self _ _) with hf | hf
            · rw [Fields_Trim_blank, hf]; rfl
            · exact absurd hf h1
      rw [List.foldl_cons, hstep]
      exact ih (fun line hline => hl line (List.mem_cons_of_mem _ hline))
  exact key _ h

/-! ## Comment lines behind a tab -/

/-- C4 fails at the text `"\t# a b"`: its only line is a comment once the surrounding
whitespace is trimmed, yet the line loop of `Get` (which trims blanks only) builds the
rule with pattern `#` and owners `a`, `b`. -/
theorem C4_tab_comment_builds_rule :
    firstNonSpace "\t# a b".toList = some '#' ∧
    V2.GetLoop "\t# a b".toList = [⟨"#".toList, some ["a".toList, "b".toList]⟩] := by
  decide

/-- C3 fails at the text `"\t#a b"`: the line loop of `Get` builds the rule with pattern
`#a` and owner `b`, `String` renders it as `#a b`, and parsing that text skips the line
as a comment, so the table parsed back is empty. -/
theorem C3_round_trip_loses_rule :
    V2.GetLoop "\t#a b".toList = [⟨"#a".toList, some ["b".toList]⟩] ∧
    CodeOwners.String ⟨[], [], V2.GetLoop "\t#a b".toList⟩ = "#a b".toList ∧
    V2.GetLoop (CodeOwners.String ⟨[], [], V2.GetLoop "\t#a b".toList⟩) = [] ∧
    V2.GetLoop (CodeOwners.String ⟨[], [], V2.GetLoop "\t#a b".toList⟩)
      ≠ V2.GetLoop "\t#a b".toList := by
  decide

/-! ## Classification of owner tokens -/

theorem take_indexOf (c : Char) (cs : Str) :
    cs.take (cs.indexOf c) = cs.takeWhile (fun x => x != c) := by
  induction cs with
  | nil => rfl
  | cons a as ih =>
    by_cases h : a = c
    · subst h
      simp [List.takeWhile_cons]
    · have h2 : ¬ (a == c) = true := by simpa using h
      rw [List.indexOf_cons]
      simp [List.takeWhile_cons, h, h2, ih]

theorem drop_indexOf (c : Char) (cs : Str) :
    cs.drop (cs.indexOf c + 1) = (cs.dropWhile (fun x => x != c)).drop 1 := by
  induction cs with
  | nil => rfl
  | cons a as ih =>
    by_cases h : a = c
    · subst h
      simp [List.dropWhile_cons]
    · have h2 : ¬ (a == c) = true := by simpa using h
      rw [List.indexOf_cons]
      simp [List.dropWhile_cons, h, h2, ih]

theorem takeWhile_append_dropWhile_of_mem (c : Char) (cs : Str) (h : c ∈ cs) :
    cs.takeWhile (fun x => x != c) ++ c :: (cs.dropWhile (fun x => x != c)).drop 1 = cs := by
  induction cs with
  | nil => simp at h
  | cons a as ih =>
    by_cases hac : a = c
    · subst hac
      simp [List.takeWhile_cons, List.dropWhile_cons]
    · have hm : c ∈ as := by
        rcases List.mem_cons.mp h with h1 | h1
        · exact absurd h1.symm hac
        · exact h1
      have e := ih hm
      simp only [List.drop_one] at e
      simp [List.takeWhile_cons, List.dropWhile_cons, hac, e]

theorem teamSplit_at (cs : Str) (h : '/' ∈ cs) :
    V2.teamSplit ('@' :: cs) =
      some (cs.takeWhile (fun c => c != '/'), (cs.dropWhile (fun c => c != '/')).drop 1) := by
  have hi : cs.indexOf '/' < cs.length := List.indexOf_lt_length.mpr h
  have hidx : Index ('@' :: cs) '/' = ((cs.indexOf '/' + 1 : Nat) : Int) := by
    unfold Index
    rw [if_pos (List.mem_cons_of_mem _ h), List.indexOf_cons]
    simp
  unfold V2.teamSplit
  simp only [hidx]
  have h1 : sliceFromTo ('@' :: cs) 1 ((cs.indexOf '/' + 1 : Nat) : Int) =
      some (cs.takeWhile (fun c => c != '/')) := by
    unfold sliceFromTo
    rw [if_pos (by simp; omega)]
    simp [take_indexOf]
  have h2 : sliceFrom ('@' :: cs) (((cs.indexOf '/' + 1 : Nat) : Int) + 1) =
      some ((cs.dropWhile (fun c => c != '/')).drop 1) := by
    unfold sliceFrom
    rw [if_pos (by simp; omega)]
    have : (((cs.indexOf '/' + 1 : Nat) : Int) + 1).toNat = cs.indexOf '/' + 1 + 1 := by omega
    rw [this]
    simp only [List.drop_succ_cons]
    rw [drop_indexOf]
  rw [h1, h2]

theorem expandowners_classify (token : Str) :
    match specClassify token with
    | some (.TeamRef org slug) =>
      V2.expandowners token = ⟨[.spawn (.expandteam token)], .returned⟩ ∧
        V2.teamSplit token = some (org, slug) ∧ '@' :: (org ++ '/' :: slug) = token
    | some (.UserRef login) =>
      V2.expandowners token = ⟨[.spawn (.fetchuser login)], .returned⟩ ∧ '@' :: login = token
    | some (.EmailRef address) =>
      V2.expandowners token = ⟨[.spawn (.finduseremail address)], .returned⟩ ∧ address = token
    | none => V2.expandowners token = ⟨[.sendErr (.doNotUnderstand token)], .returned⟩ := by
  rcases token with _ | ⟨c, cs⟩
  · simp [specClassify, V2.expandowners, HasPrefix, Contains]
  · by_cases hc : c = '@'
    · subst hc
      by_cases hs : '/' ∈ cs
      · have hs2 : '/' ∈ '@' :: cs := List.mem_cons_of_mem _ hs
        simp only [specClassify, List.head?_cons, true_and, hs2, if_true, List.drop_succ_cons,
          List.drop_zero]
        refine ⟨?_, teamSplit_at cs hs, ?_⟩
        · simp [V2.expandowners, HasPrefix, Contains, hs]
        · rw [takeWhile_append_dropWhile_of_mem '/' cs hs]
      · have hs2 : ¬ '/' ∈ '@' :: cs := by simpa using hs
        simp only [specClassify, List.head?_cons, true_and, hs2, if_false, if_true,
          List.drop_succ_cons, List.drop_zero]
        simp [V2.expandowners, HasPrefix, Contains, hs, sliceFrom]
    · by_cases ha : '@' ∈ cs
      · have ha2 : '@' ∈ c :: cs := List.mem_cons_of_mem _ ha
        have hc1 : ¬ (some c = some '@') := by simpa using hc
        simp only [specClassify, List.head?_cons, hc1, false_and, if_false, ha2, if_true]
        have hc2 : ¬ ('@' = c) := fun h => hc h.symm
        simp [V2.expandowners, HasPrefix, Contains, hc, hc2, ha]
      · have ha2 : ¬ '@' ∈ c :: cs := by
          simp only [List.mem_cons, not_or]; exact ⟨fun h => hc h.symm, ha⟩
        have hc1 : ¬ (some c = some '@') := by simpa using hc
        simp only [specClassify, List.head?_cons, hc1, false_and, if_false, ha2]
        have hc2 : ¬ ('@' = c) := fun h => hc h.symm
        simp [V2.expandowners, HasPrefix, Contains, hc, hc2, ha]

/-- C6: `expandowners` acts on every token as the classification of the specification
says, the four cases in that order: a team token starts `expandteam`, whose two slice
expressions are in range and give the org and the slug with `@org/slug` the token; a
user token starts `fetchuser` on the token without its `@`; an email token starts
`finduseremail` on the whole token; any other token gets the single error "Do not
understand user specification" and no directory request. -/
theorem C6_classification (token : Str) :
    match specClassify token with
    | some (.TeamRef org slug) =>
      V2.expandowners token = ⟨[.spawn (.expandteam token)], .returned⟩ ∧
        V2.teamSplit token = some (org, slug) ∧ '@' :: (org ++ '/' :: slug) = token
    | some (.UserRef login) =>
      V2.expandowners token = ⟨[.spawn (.fetchuser login)], .returned⟩ ∧ '@' :: login = token
    | some (.EmailRef address) =>
      V2.expandowners token = ⟨[.spawn (.finduseremail address)], .returned⟩ ∧ address = token
    | none => V2.expandowners token = ⟨[.sendErr (.doNotUnderstand token)], .returned⟩ :=
  expandowners_classify token

/-! ## Matching -/

theorem selectOwners_no_match (env : Env) (ps : List codeOwner) (path : Str)
    (init : Option (List Str)) (h : ∀ q ∈ ps, env.doublestarMatch q.path path = false) :
    V2.selectOwners env ps path init = init := by
  unfold V2.selectOwners
  induction ps generalizing init with
  | nil => rfl
  | cons a as ih =>
    simp only [List.foldl_cons, h a (by simp)]
    exact ih _ (fun q hq => h q (by simp [hq]))

theorem selectOwners_last (env : Env) (pre post : List codeOwner) (r : codeOwner) (path : Str)
    (init : Option (List Str)) (hr : env.doublestarMatch r.path path = true)
    (h : ∀ q ∈ post, env.doublestarMatch q.path path = false) :
    V2.selectOwners env (pre ++ r :: post) path init = r.owners := by
  have := selectOwners_no_match env post path r.owners h
  unfold V2.selectOwners at this ⊢
  simp only [List.foldl_append, List.foldl_cons, hr, if_true]
  exact this

theorem exists_last_match (env : Env) (ps : List codeOwner) (path : Str)
    (h : ∃ r ∈ ps, env.doublestarMatch r.path path = true) :
    ∃ pre r post, ps = pre ++ r :: post ∧ env.doublestarMatch r.path path = true ∧
      ∀ q ∈ post, env.doublestarMatch q.path path = false := by
  induction ps with
  | nil => obtain ⟨r, hr, _⟩ := h; simp at hr
  | cons a as ih =>
    by_cases hex : ∃ r ∈ as, env.doublestarMatch r.path path = true
    · obtain ⟨pre, r, post, hps, hr, hpost⟩ := ih hex
      exact ⟨a :: pre, r, post, by simp [hps], hr, hpost⟩
    · have hno : ∀ q ∈ as, env.doublestarMatch q.path path = false := by
        intro q hq
        by_contra hc
        exact hex ⟨q, hq, by simpa using hc⟩
      obtain ⟨r, hr, hm⟩ := h
      rcases List.mem_cons.mp hr with h1 | h1
      · subst h1
        exact ⟨[], r, as, rfl, hm, hno⟩
      · rw [hno r h1] at hm
        exact absurd hm (by simp)

theorem selectOwners_last_match (env : Env) (fuel : Nat) (co : CodeOwners) (path : Str)
    (h : ∃ r ∈ co.patterns, env.doublestarMatch r.path path = true) :
    ∃ pre r post, co.patterns = pre ++ r :: post ∧
      env.doublestarMatch r.path path = true ∧
      (∀ q ∈ post, env.doublestarMatch q.path path = false) ∧
      V2.selectOwners env co.patterns path none = r.owners ∧
      (∀ owners, r.owners = some owners →
        V2.MatchStart env fuel co path = .ok (V2.startState env fuel owners)) := by
  obtain ⟨pre, r, post, hps, hr, hpost⟩ := exists_last_match env co.patterns path h
  have hsel : V2.selectOwners env co.patterns path none = r.owners := by
    rw [hps]; exact selectOwners_last env pre post r path none hr hpost
  refine ⟨pre, r, post, hps, hr, hpost, hsel, ?_⟩
  intro owners ho
  unfold V2.MatchStart
  rw [hsel, ho]

/-- C1: if some rule of the table matches the path, the first loop of `Match` selects the
specifier list of the last matching rule, unchanged (no rule after it matches, and no
earlier rule contributes), and `Match` starts one `expandowners` per token of that
list, in order. Glob matching is the given predicate `env.doublestarMatch`. -/
theorem C1_last_match_wins (env : Env) (fuel : Nat) (co : CodeOwners) (path : Str)
    (h : ∃ r ∈ co.patterns, env.doublestarMatch r.path path = true) :
    ∃ pre r post, co.patterns = pre ++ r :: post ∧
      env.doublestarMatch r.path path = true ∧
      (∀ q ∈ post, env.doublestarMatch q.path path = false) ∧
      V2.selectOwners env co.patterns path none = r.owners ∧
      (∀ owners, r.owners = some owners →
        V2.MatchStart env fuel co path = .ok (V2.startState env fuel owners)) :=
  selectOwners_last_match env fuel co path h

/-- C1 at the table `* @alice`, `docs/* @bob`, `src/* @carol` and the path
`docs/readme.md` in the sample environment: the first two rules match, the third does
not. -/
theorem C1_last_match_wins_witness :
    (∃ r ∈ (V2.Get [] [] (.ok "* @alice\ndocs/* @bob\nsrc/* @carol".toList)).1.patterns,
      sampleEnv.doublestarMatch r.path "docs/readme.md".toList = true) ∧
    V2.selectOwners sampleEnv
      (V2.Get [] [] (.ok "* @alice\ndocs/* @bob\nsrc/* @carol".toList)).1.patterns
      "docs/readme.md".toList none = some ["@bob".toList] ∧
    ∃ pre r post,
      (V2.Get [] [] (.ok "* @alice\ndocs/* @bob\nsrc/* @carol".toList)).1.patterns
        = pre ++ r :: post ∧
      sampleEnv.doublestarMatch r.path "docs/readme.md".toList = true ∧
      (∀ q ∈ post, sampleEnv.doublestarMatch q.path "docs/readme.md".toList = false) ∧
      V2.selectOwners sampleEnv
        (V2.Get [] [] (.ok "* @alice\ndocs/* @bob\nsrc/* @carol".toList)).1.patterns
        "docs/readme.md".toList none = r.owners ∧
      (∀ owners, r.owners = some owners →
        V2.MatchStart sampleEnv 0
          (V2.Get [] [] (.ok "* @alice\ndocs/* @bob\nsrc/* @carol".toList)).1
          "docs/readme.md".toList = .ok (V2.startState sampleEnv 0 owners)) :=
  ⟨by decide, by decide, C1_last_match_wins sampleEnv 0 _ _ (by decide)⟩

/-! ## Tables built by `Get` -/

theorem appendRule_owners (patterns : List codeOwner) (words : List Str)
    (h : ∀ r ∈ patterns, ∃ w ws, r.owners = some (w :: ws)) :
    ∀ r ∈ appendRule patterns words, ∃ w ws, r.owners = some (w :: ws) := by
  unfold appendRule ruleOfWords
  rcases words with _ | ⟨w0, _ | ⟨w1, rest⟩⟩
  · exact h
  · exact h
  · intro r hr
    simp only [List.mem_append, List.mem_singleton] at hr
    rcases hr with hr | hr
    · exact h r hr
    · exact ⟨w1, rest, by rw [hr]⟩

theorem V2_GetStep_owners (patterns : List codeOwner) (line : Str)
    (h : ∀ r ∈ patterns, ∃ w ws, r.owners = some (w :: ws)) :
    ∀ r ∈ V2.GetStep patterns line, ∃ w ws, r.owners = some (w :: ws) := by
  unfold V2.GetStep
  simp only
  split
  · exact h
  · split
    · exact h
    · exact appendRule_owners _ _ h

theorem V2_foldl_GetStep_owners (lines : List Str) (patterns : List codeOwner)
    (h : ∀ r ∈ patterns, ∃ w ws, r.owners = some (w :: ws)) :
    ∀ r ∈ lines.foldl V2.GetStep patterns, ∃ w ws, r.owners = some (w :: ws) := by
  induction lines generalizing patterns with
  | nil => exact h
  | cons l ls ih => exact ih _ (V2_GetStep_owners patterns l h)

theorem V2_Get_owners (owner repo : Str) (fetched : Except Str Str) :
    ∀ r ∈ (V2.Get owner repo fetched).1.patterns, ∃ w ws, r.owners = some (w :: ws) := by
  unfold V2.Get
  cases fetched with
  | error e => intro r hr; simp at hr
  | ok content =>
    exact V2_foldl_GetStep_owners _ [] (by intro r hr; simp at hr)

/-- C2: for a table built by `Get`, `Match` takes its early return, with no identity and
the single error "failed to find owner" and without starting any goroutine, exactly
when no rule matches the path; then that pair is the only result of `Match`. When some
rule matches, `Match` starts at least one goroutine. -/
theorem C2_no_match_error (env : Env) (fuel : Nat) (owner repo : Str)
    (fetched : Except Str Str) (path : Str) :
    (V2.MatchStart env fuel (V2.Get owner repo fetched).1 path
        = .error ([], [.failedToFindOwner]) ↔
      ∀ r ∈ (V2.Get owner repo fetched).1.patterns, env.doublestarMatch r.path path = false) ∧
    ((∀ r ∈ (V2.Get owner repo fetched).1.patterns, env.doublestarMatch r.path path = false) →
      ∀ res, V2.MatchReturns env fuel (V2.Get owner repo fetched).1 path res ↔
        res = ([], [.failedToFindOwner])) ∧
    ((∃ r ∈ (V2.Get owner repo fetched).1.patterns, env.doublestarMatch r.path path = true) →
      ∃ s0, V2.MatchStart env fuel (V2.Get owner repo fetched).1 path = .ok s0 ∧
        s0.goroutines ≠ []) := by
  have hstart_of_match :
      (∃ r ∈ (V2.Get owner repo fetched).1.patterns, env.doublestarMatch r.path path = true) →
      ∃ s0, V2.MatchStart env fuel (V2.Get owner repo fetched).1 path = .ok s0 ∧
        s0.goroutines ≠ [] := by
    intro hex
    obtain ⟨pre, r, post, hps, _, _, _, hstart⟩ :=
      selectOwners_last_match env fuel _ path hex
    obtain ⟨w, ws, hw⟩ := V2_Get_owners owner repo fetched r (by rw [hps]; simp)
    exact ⟨_, hstart _ hw, by simp [V2.startState]⟩
  have hnone_of_no_match :
      (∀ r ∈ (V2.Get owner repo fetched).1.patterns, env.doublestarMatch r.path path = false) →
      V2.MatchStart env fuel (V2.Get owner repo fetched).1 path
        = .error ([], [.failedToFindOwner]) := by
    intro hno
    unfold V2.MatchStart
    rw [selectOwners_no_match env _ path none hno]
  refine ⟨⟨?_, hnone_of_no_match⟩, ?_, hstart_of_match⟩
  · intro herr r hr
    by_contra hc
    obtain ⟨s0, hs0, _⟩ := hstart_of_match ⟨r, hr, by simpa using hc⟩
    rw [hs0] at herr
    exact absurd herr (by simp)
  · intro hno res
    have hE := hnone_of_no_match hno
    constructor
    · intro hret
      cases hret with
      | early res he => rw [hE] at he; exact (Except.error.inj he).symm
      | collected s0 s he _ _ => rw [hE] at he; exact absurd he (by simp)
    · intro hres
      subst hres
      exact V2.MatchReturns.early _ hE

/-- C2 at a text of comment and blank lines only, in the sample environment. -/
theorem C2_no_match_error_witness :
    (∀ r ∈ (V2.Get [] [] (.ok "# owners\n\n  # none yet\n".toList)).1.patterns,
      sampleEnv.doublestarMatch r.path "docs/readme.md".toList = false) ∧
    V2.MatchReturns sampleEnv 0 (V2.Get [] [] (.ok "# owners\n\n  # none yet\n".toList)).1
      "docs/readme.md".toList ([], [.failedToFindOwner]) :=
  ⟨by decide,
    ((C2_no_match_error sampleEnv 0 [] [] (.ok "# owners\n\n  # none yet\n".toList)
      "docs/readme.md".toList).2.1 (by decide) _).mpr rfl⟩

/-! ## Team expansion -/

theorem teamsPage_absent (env : Env) (org slug : Str) (page : Nat) (teamid orgid : Int)
    (teams : List Team) (nextPage : Nat) (hok : env.ListTeams org page = .ok (teams, nextPage))
    (habs : slugAbsent env org slug page = true) :
    V2.teamsPage env org slug page teamid orgid =
      ([.call (.ListTeams org page)], some (teamid, orgid, nextPage)) := by
  unfold slugAbsent at habs
  rw [hok] at habs
  have hfind : teams.find? (fun team => slug == team.Slug) = none := by
    rw [List.find?_eq_none]
    intro t ht
    have := List.all_eq_true.mp habs t ht
    simpa using this
  unfold V2.teamsPage
  rw [hok]
  simp only [hfind]

theorem teamsLoop_absent (env : Env) (org slug : Str) (pages : List Nat) :
    ∀ (fuel page : Nat) (teamid orgid : Int), isListing env org page pages = true →
      (∀ p ∈ pages, slugAbsent env org slug p = true) → pages.length ≤ fuel →
      V2.teamsLoop env org slug fuel page teamid orgid =
        (pages.map (fun p => Event.call (.ListTeams org p)), .inr (teamid, orgid)) := by
  induction pages with
  | nil => intro fuel page teamid orgid h; simp [isListing] at h
  | cons q rest ih =>
    intro fuel page teamid orgid hl habs hfuel
    cases fuel with
    | zero => simp at hfuel
    | succ fuel =>
      unfold isListing at hl
      simp only [Bool.and_eq_true, beq_iff_eq] at hl
      obtain ⟨hq, hl⟩ := hl
      subst hq
      cases hok : env.ListTeams org q with
      | error e => rw [hok] at hl; simp at hl
      | ok res =>
        obtain ⟨teams, nextPage⟩ := res
        rw [hok] at hl
        simp only at hl
        unfold V2.teamsLoop
        rw [teamsPage_absent env org slug q teamid orgid teams nextPage hok (habs q (by simp))]
        by_cases hn : nextPage = 0
        · simp only [hn, if_true] at hl ⊢
          have : rest = [] := by simpa using hl
          subst this
          simp
        · simp only [hn, if_false] at hl ⊢
          rw [ih fuel nextPage teamid orgid hl (fun p hp => habs p (by simp [hp]))
            (by simpa using hfuel)]
          simp

theorem teamSplit_token (org slug : Str) (horg : '/' ∉ org) :
    V2.teamSplit ('@' :: (org ++ '/' :: slug)) = some (org, slug) := by
  rw [teamSplit_at _ (by simp)]
  have h1 : ∀ l : Str, '/' ∉ l →
      (l ++ '/' :: slug).takeWhile (fun c => c != '/') = l ∧
      (l ++ '/' :: slug).dropWhile (fun c => c != '/') = '/' :: slug := by
    intro l
    induction l with
    | nil => intro _; simp [List.takeWhile_cons, List.dropWhile_cons]
    | cons a as ih =>
      intro hl
      have ha : a ≠ '/' := fun h => hl (by simp [h])
      have has : '/' ∉ as := fun h => hl (by simp [h])
      obtain ⟨e1, e2⟩ := ih has
      simp only [List.cons_append, List.takeWhile_cons, List.dropWhile_cons]
      simp [ha, e1, e2]
  obtain ⟨e1, e2⟩ := h1 org horg
  rw [e1, e2]
  rfl

/-- C8: for a team token `@org/slug`, when the team listing of `org` consists of the pages
`pages` (all requests succeed, the last page reports no further page) and no team on
them has the slug, `expandteam` requests exactly these pages in order, then sends the one
error "Failed to find team matching slug" and returns: it sends no identity, starts no
`fetchuser` and makes no membership or slug request. -/
theorem C8_team_not_found (env : Env) (fuel : Nat) (org slug : Str) (pages : List Nat)
    (horg : '/' ∉ org) (hpages : isListing env org 0 pages = true)
    (habs : ∀ p ∈ pages, slugAbsent env org slug p = true) (hfuel : pages.length ≤ fuel) :
    V2.expandowners ('@' :: (org ++ '/' :: slug)) =
        ⟨[.spawn (.expandteam ('@' :: (org ++ '/' :: slug)))], .returned⟩ ∧
    V2.expandteam env fuel ('@' :: (org ++ '/' :: slug)) =
      ⟨pages.map (fun p => Event.call (.ListTeams org p)) ++
        [.sendErr (.failedToFindTeam slug)], .returned⟩ := by
  constructor
  · simp [V2.expandowners, HasPrefix, Contains]
  · unfold V2.expandteam
    rw [teamSplit_token org slug horg]
    simp only
    rw [teamsLoop_absent env org slug pages fuel 0 0 0 hpages habs hfuel]
    simp

/-- C8 at the token `@o/zz` in the sample environment, whose listing has the pages 0 and 2. -/
theorem C8_team_not_found_witness :
    V2.expandteam sampleEnv 2 "@o/zz".toList =
      ⟨[.call (.ListTeams "o".toList 0), .call (.ListTeams "o".toList 2),
        .sendErr (.failedToFindTeam "zz".toList)], .returned⟩ :=
  (C8_team_not_found sampleEnv 2 "o".toList "zz".toList [0, 2] (by decide) (by decide)
    (by decide) (by decide)).2

theorem sample_membersLoop (orgid teamid : Int) (n : Nat) :
    (V2.membersLoop sampleEnv orgid teamid n 0).status = .running ∧
    (∀ e ∈ (V2.membersLoop sampleEnv orgid teamid n 0).events,
      e = .call (.ListTeamMembersByID orgid teamid 0) ∨ e = .spawn (.fetchuser "x".toList)) ∧
    (V2.membersLoop sampleEnv orgid teamid n 0).events.count
      (.spawn (.fetchuser "x".toList)) = n := by
  induction n with
  | zero => simp [V2.membersLoop]
  | succ n ih =>
    obtain ⟨h1, h2, h3⟩ := ih
    have hp : sampleEnv.ListTeamMembersByID orgid teamid 0 = .ok (["x".toList], 2) := rfl
    unfold V2.membersLoop
    rw [hp]
    simp only [OfNat.ofNat_ne_zero, if_false, List.map_cons, List.map_nil]
    refine ⟨h1, ?_, ?_⟩
    · intro e he
      simp only [List.cons_append, List.nil_append, List.mem_cons] at he
      rcases he with he | he | he
      · exact Or.inl he
      · exact Or.inr he
      · exact h2 e he
    · simp only [List.cons_append, List.nil_append]
      rw [List.count_cons, List.count_cons, h3]
      simp

/-- C7 fails on a team whose members span two pages: in the sample environment member
`x` is on page 0, which announces page 2, and member `y` is on page 2. For every bound on
the passes of its loops `expandteam "@o/t"` has not returned; after the two team-listing
requests every request it makes is the membership request for page 0 again (the cursor
of the answer is never used), `fetchuser "y"` is never started, and `fetchuser "x"` is
started once per pass, not once. -/
theorem C7_membership_cursor_ignored (fuel : Nat) :
    (V2.expandteam sampleEnv fuel "@o/t".toList).status = .running ∧
    (∀ e ∈ (V2.expandteam sampleEnv fuel "@o/t".toList).events,
      e = .call (.ListTeams "o".toList 0) ∨ e = .call (.ListTeams "o".toList 2) ∨
      e = .call (.ListTeamMembersByID 5 7 0) ∨ e = .spawn (.fetchuser "x".toList)) ∧
    (V2.expandteam sampleEnv (fuel + 2) "@o/t".toList).events.count
      (.spawn (.fetchuser "x".toList)) = fuel + 2 := by
  have hsplit : V2.teamSplit "@o/t".toList = some ("o".toList, "t".toList) := by decide
  have hloop : ∀ n, V2.teamsLoop sampleEnv "o".toList "t".toList (n + 2) 0 0 0 =
      ([.call (.ListTeams "o".toList 0), .call (.ListTeams "o".toList 2)], .inr (7, 5)) := by
    intro n
    have e0 : V2.teamsPage sampleEnv "o".toList "t".toList 0 0 0 =
        ([.call (.ListTeams "o".toList 0)], some (0, 0, 2)) := by decide
    have e2 : V2.teamsPage sampleEnv "o".toList "t".toList 2 0 0 =
        ([.call (.ListTeams "o".toList 2)], some (7, 5, 0)) := by decide
    show V2.teamsLoop sampleEnv "o".toList "t".toList (n + 1 + 1) 0 0 0 = _
    rw [V2.teamsLoop, e0]
    simp only [OfNat.ofNat_ne_zero, if_false]
    rw [V2.teamsLoop, e2]
    simp
  have hbig : ∀ n, V2.expandteam sampleEnv (n + 2) "@o/t".toList =
      ⟨[.call (.ListTeams "o".toList 0), .call (.ListTeams "o".toList 2)] ++
        (V2.membersLoop sampleEnv 5 7 (n + 2) 0).events,
        (V2.membersLoop sampleEnv 5 7 (n + 2) 0).status⟩ := by
    intro n
    unfold V2.expandteam
    rw [hsplit]
    simp only [hloop n]
    simp
  refine ⟨?_, ?_, ?_⟩
  · rcases fuel with _ | _ | n
    · decide
    · decide
    · rw [hbig n]; exact (sample_membersLoop 5 7 (n + 2)).1
  · rcases fuel with _ | _ | n
    · decide
    · decide
    · rw [hbig n]
      intro e he
      simp only [List.cons_append, List.nil_append, List.mem_cons] at he
      rcases he with he | he | he
      · exact Or.inl he
      · exact Or.inr (Or.inl he)
      · rcases (sample_membersLoop 5 7 (n + 2)).2.1 e he with h | h
        · exact Or.inr (Or.inr (Or.inl h))
        · exact Or.inr (Or.inr (Or.inr h))
  · rw [hbig fuel]
    simp only [List.cons_append, List.nil_append]
    rw [List.count_cons, List.count_cons, (sample_membersLoop 5 7 (fuel + 2)).2.2]
    simp

/-! ## Accounting for the goroutines of `Match` -/

theorem teamsPage_no_spawn (env : Env) (orga teamname : Str) (page : Nat) (teamid orgid : Int)
    (t : Task) : Event.spawn t ∉ (V2.teamsPage env orga teamname page teamid orgid).1 := by
  unfold V2.teamsPage
  split
  · simp
  · split
    · simp
    · split
      · split <;> simp
      · simp

theorem teamsLoop_no_spawn (env : Env) (orga teamname : Str) (t : Task) :
    ∀ (fuel page : Nat) (teamid orgid : Int),
      Event.spawn t ∉ (V2.teamsLoop env orga teamname fuel page teamid orgid).1 := by
  intro fuel
  induction fuel with
  | zero => intro page teamid orgid; simp [V2.teamsLoop]
  | succ fuel ih =>
    intro page teamid orgid
    have hp := teamsPage_no_spawn env orga teamname page teamid orgid t
    unfold V2.teamsLoop
    rcases hpg : V2.teamsPage env orga teamname page teamid orgid with ⟨evs, _ | ⟨t1, o1, np⟩⟩
    · rw [hpg] at hp; simpa using hp
    · rw [hpg] at hp
      simp only
      split
      · simpa using hp
      · simp only [List.mem_append, not_or]
        exact ⟨hp, ih np t1 o1⟩

theorem membersLoop_spawn (env : Env) (orgid teamid : Int) (t : Task) :
    ∀ (fuel page : Nat), Event.spawn t ∈ (V2.membersLoop env orgid teamid fuel page).events →
      rank t = 0 := by
  intro fuel
  induction fuel with
  | zero => intro page h; simp [V2.membersLoop] at h
  | succ fuel ih =>
    intro page h
    unfold V2.membersLoop at h
    split at h
    · simp at h
    · simp only at h
      split at h
      · simp only [List.mem_cons, List.mem_map] at h
        rcases h with h | ⟨l, _, h⟩
        · cases h
        · cases h; rfl
      · simp only [List.cons_append, List.mem_cons, List.mem_append, List.mem_map] at h
        rcases h with h | ⟨l, _, h⟩ | h
        · cases h
        · cases h; rfl
        · exact ih page h

theorem expandteam_spawn (env : Env) (fuel : Nat) (fullteam : Str) (t : Task)
    (h : Event.spawn t ∈ (V2.expandteam env fuel fullteam).events) : rank t = 0 := by
  unfold V2.expandteam at h
  split at h
  · simp at h
  · rename_i orga teamname _
    have hl := teamsLoop_no_spawn env orga teamname t fuel 0 0 0
    split at h
    · rename_i evs st heq
      rw [heq] at hl
      exact absurd h hl
    · rename_i evs teamid orgid heq
      rw [heq] at hl
      split at h
      · simp only [List.mem_append, List.mem_singleton] at h
        rcases h with h | h
        · exact absurd h hl
        · cases h
      · simp only [List.mem_append] at h
        rcases h with h | h
        · exact absurd h hl
        · exact membersLoop_spawn env orgid teamid t fuel 0 h

theorem spawn_rank (env : Env) (fuel : Nat) (t t1 : Task)
    (h : Event.spawn t1 ∈ (V2.body env fuel t).events) : rank t1 < rank t := by
  cases t with
  | expandowners ownertext =>
    simp only [V2.body, V2.expandowners] at h
    split at h
    · simp at h; subst h; simp [rank]
    · split at h
      · split at h
        · simp at h; subst h; simp [rank]
        · simp at h
      · split at h
        · simp at h; subst h; simp [rank]
        · simp at h
  | expandteam fullteam =>
    have := expandteam_spawn env fuel fullteam t1 h
    show rank t1 < 1
    omega
  | fetchuser name =>
    simp only [V2.body, V2.fetchuser] at h
    split at h <;> simp at h
  | finduseremail email =>
    simp only [V2.body, V2.finduseremail] at h
    split at h <;> simp at h

theorem owed_congr (T T1 : Task → Multiset Event) (evs : List Event)
    (h : ∀ t, Event.spawn t ∈ evs → T t = T1 t) : owed T evs = owed T1 evs := by
  induction evs with
  | nil => rfl
  | cons e evs ih =>
    have ih1 := ih (fun t ht => h t (List.mem_cons_of_mem _ ht))
    cases e with
    | call c => simp [owed, ih1]
    | sendData u => simp [owed, ih1]
    | sendErr e => simp [owed, ih1]
    | spawn t => simp [owed, ih1, h t (List.mem_cons_self _ _)]

theorem total_stable (env : Env) (fuel : Nat) :
    ∀ (d : Nat) (t : Task), rank t < d → total env fuel d t = total env fuel (d + 1) t := by
  intro d
  induction d with
  | zero => intro t h; simp at h
  | succ d ih =>
    intro t h
    show owed (total env fuel d) _ = owed (total env fuel (d + 1)) _
    apply owed_congr
    intro t1 ht1
    exact ih t1 (by have := spawn_rank env fuel t t1 ht1; omega)

theorem treeEvents_eq (env : Env) (fuel : Nat) (t : Task) :
    treeEvents env fuel t = owed (treeEvents env fuel) (V2.body env fuel t).events := by
  have h : rank t < 3 := by cases t <;> simp [rank]
  exact total_stable env fuel 3 t h

theorem pending_append (T : Task → Multiset Event) (xs ys : List Run) :
    pending T (xs ++ ys) = pending T xs + pending T ys := by
  simp [pending, List.sum_append]

theorem pending_cons (T : Task → Multiset Event) (g : Run) (gs : List Run) :
    pending T (g :: gs) = owed T g.events + pending T gs := by
  simp [pending]

theorem step_seen (env : Env) (fuel : Nat) (s s1 : V2.State) (h : V2.Step env fuel s s1) :
    seen s1 + pending (treeEvents env fuel) s1.goroutines =
      seen s + pending (treeEvents env fuel) s.goroutines := by
  cases h with
  | call pre post c evs st users errs calls =>
    simp only [seen, pending_append, pending_cons, owed, List.map_append, List.map_cons,
      List.map_nil, ← Multiset.coe_add, ← Multiset.singleton_add, ← Multiset.coe_singleton]
    abel
  | sendData pre post u evs st users errs calls =>
    simp only [seen, pending_append, pending_cons, owed, List.map_append, List.map_cons,
      List.map_nil, ← Multiset.coe_add, ← Multiset.singleton_add, ← Multiset.coe_singleton]
    abel
  | sendErr pre post e evs st users errs calls =>
    simp only [seen, pending_append, pending_cons, owed, List.map_append, List.map_cons,
      List.map_nil, ← Multiset.coe_add, ← Multiset.singleton_add, ← Multiset.coe_singleton]
    abel
  | spawn pre post t evs st users errs calls =>
    simp only [seen, pending_append, pending_cons, owed]
    rw [treeEvents_eq env fuel t]
    simp only [pending, List.map_nil, List.sum_nil, add_zero]
    abel
  | done pre post users errs calls =>
    simp only [seen, pending_append, pending_cons, owed]
    abel

theorem reaches_seen (env : Env) (fuel : Nat) (s s1 : V2.State) (h : V2.Reaches env fuel s s1) :
    seen s1 + pending (treeEvents env fuel) s1.goroutines =
      seen s + pending (treeEvents env fuel) s.goroutines := by
  induction h with
  | refl => rfl
  | tail _ hstep ih => rw [step_seen env fuel _ _ hstep, ih]

theorem final_seen (env : Env) (fuel : Nat) (owners : List Str) (s : V2.State)
    (h : V2.Reaches env fuel (V2.startState env fuel owners) s) (hfin : s.goroutines = []) :
    seen s = (owners.map (fun o => treeEvents env fuel (.expandowners o))).sum := by
  have := reaches_seen env fuel _ _ h
  rw [hfin] at this
  simp only [pending, List.map_nil, List.sum_nil, add_zero, V2.startState, seen,
    Multiset.coe_nil, List.map_map, zero_add] at this
  rw [seen, this]
  congr 1
  apply List.map_congr_left
  intro o _
  exact (treeEvents_eq env fuel (.expandowners o)).symm

/-! ## Every goroutine of `Match` gets to its end -/

theorem finishesWithin_settles (env : Env) (fuel d : Nat) (t : Task)
    (h : finishesWithin env fuel (d + 1) t = true) : settles env fuel d (V2.body env fuel t) := by
  unfold finishesWithin at h
  simp only [Bool.and_eq_true, beq_iff_eq, List.all_eq_true] at h
  exact ⟨h.1, fun t1 ht1 => h.2 _ ht1⟩

theorem spawned_settles (env : Env) (fuel d : Nat) (evs : List Event)
    (h : ∀ t, Event.spawn t ∈ evs → finishesWithin env fuel (d + 1) t = true) :
    ∀ g ∈ spawned env fuel evs, settles env fuel d g := by
  induction evs with
  | nil => intro g hg; simp [spawned] at hg
  | cons e evs ih =>
    have ih1 := ih (fun t ht => h t (List.mem_cons_of_mem _ ht))
    cases e with
    | call c => simpa [spawned] using ih1
    | sendData u => simpa [spawned] using ih1
    | sendErr e => simpa [spawned] using ih1
    | spawn t =>
      intro g hg
      simp only [spawned, List.mem_cons] at hg
      rcases hg with hg | hg
      · subst hg
        exact finishesWithin_settles env fuel d t (h t (List.mem_cons_self _ _))
      · exact ih1 g hg

theorem spawned_nil (env : Env) (fuel : Nat) (evs : List Event)
    (h : ∀ t, Event.spawn t ∉ evs) : spawned env fuel evs = [] := by
  induction evs with
  | nil => rfl
  | cons e evs ih =>
    have ih1 := ih (fun t ht => h t (List.mem_cons_of_mem _ ht))
    cases e with
    | call c => simpa [spawned] using ih1
    | sendData u => simpa [spawned] using ih1
    | sendErr e => simpa [spawned] using ih1
    | spawn t => exact absurd (List.mem_cons_self _ _) (h t)

theorem run_own (env : Env) (fuel : Nat) (pre : List Run) (evs : List Event) :
    ∀ (post : List Run) (users : List User) (errs : List GoError) (calls : List Call),
      ∃ users1 errs1 calls1,
        V2.Reaches env fuel ⟨pre ++ ⟨evs, .returned⟩ :: post, users, errs, calls⟩
          ⟨pre ++ (post ++ spawned env fuel evs), users1, errs1, calls1⟩ := by
  induction evs with
  | nil =>
    intro post users errs calls
    refine ⟨users, errs, calls, ?_⟩
    simp only [spawned, List.append_nil]
    exact Relation.ReflTransGen.single (V2.Step.done pre post users errs calls)
  | cons e evs ih =>
    intro post users errs calls
    cases e with
    | call c =>
      obtain ⟨u1, e1, c1, h⟩ := ih post users errs (calls ++ [c])
      exact ⟨u1, e1, c1, Relation.ReflTransGen.head
        (V2.Step.call pre post c evs .returned users errs calls) h⟩
    | sendData u =>
      obtain ⟨u1, e1, c1, h⟩ := ih post (users ++ [u]) errs calls
      exact ⟨u1, e1, c1, Relation.ReflTransGen.head
        (V2.Step.sendData pre post u evs .returned users errs calls) h⟩
    | sendErr e =>
      obtain ⟨u1, e1, c1, h⟩ := ih post users (errs ++ [e]) calls
      exact ⟨u1, e1, c1, Relation.ReflTransGen.head
        (V2.Step.sendErr pre post e evs .returned users errs calls) h⟩
    | spawn t =>
      obtain ⟨u1, e1, c1, h⟩ := ih (post ++ [V2.body env fuel t]) users errs calls
      refine ⟨u1, e1, c1, Relation.ReflTransGen.head
        (V2.Step.spawn pre post t evs .returned users errs calls) ?_⟩
      simpa [spawned, List.append_assoc] using h

theorem lower_depth (env : Env) (fuel d : Nat) (gs : List Run) :
    (∀ g ∈ gs, settles env fuel (d + 1) g) →
    ∀ (lows : List Run), (∀ g ∈ lows, settles env fuel d g) →
    ∀ (users : List User) (errs : List GoError) (calls : List Call),
      ∃ lows1 users1 errs1 calls1,
        V2.Reaches env fuel ⟨gs ++ lows, users, errs, calls⟩ ⟨lows1, users1, errs1, calls1⟩ ∧
        ∀ g ∈ lows1, settles env fuel d g := by
  induction gs with
  | nil =>
    intro _ lows hl users errs calls
    exact ⟨lows, users, errs, calls, Relation.ReflTransGen.refl, hl⟩
  | cons g rest ih =>
    intro hg lows hl users errs calls
    obtain ⟨evs, st⟩ := g
    have hgs := hg ⟨evs, st⟩ (List.mem_cons_self _ _)
    obtain ⟨hst, hsp⟩ := hgs
    simp only at hst hsp
    subst hst
    obtain ⟨u1, e1, c1, h1⟩ := run_own env fuel [] evs (rest ++ lows) users errs calls
    have hl2 : ∀ g ∈ lows ++ spawned env fuel evs, settles env fuel d g := by
      intro g hg2
      rcases List.mem_append.mp hg2 with h | h
      · exact hl g h
      · exact spawned_settles env fuel d evs hsp g h
    obtain ⟨lows1, u2, e2, c2, h2, hl3⟩ :=
      ih (fun g hg2 => hg g (List.mem_cons_of_mem _ hg2)) (lows ++ spawned env fuel evs) hl2 u1 e1 c1
    refine ⟨lows1, u2, e2, c2, ?_, hl3⟩
    refine Relation.ReflTransGen.trans ?_ h2
    simpa [List.append_assoc] using h1

theorem settle_all (env : Env) (fuel : Nat) :
    ∀ (d : Nat) (gs : List Run), (∀ g ∈ gs, settles env fuel d g) →
    ∀ (users : List User) (errs : List GoError) (calls : List Call),
      ∃ s, V2.Reaches env fuel ⟨gs, users, errs, calls⟩ s ∧ s.goroutines = [] := by
  intro d
  induction d with
  | zero =>
    intro gs
    induction gs with
    | nil => intro _ users errs calls; exact ⟨_, Relation.ReflTransGen.refl, rfl⟩
    | cons g rest ih =>
      intro hg users errs calls
      obtain ⟨evs, st⟩ := g
      obtain ⟨hst, hsp⟩ := hg ⟨evs, st⟩ (List.mem_cons_self _ _)
      simp only at hst hsp
      subst hst
      have hnil : spawned env fuel evs = [] :=
        spawned_nil env fuel evs (fun t ht => by simpa [finishesWithin] using hsp t ht)
      obtain ⟨u1, e1, c1, h1⟩ := run_own env fuel [] evs rest users errs calls
      rw [hnil] at h1
      obtain ⟨s, h2, hs⟩ := ih (fun g hg2 => hg g (List.mem_cons_of_mem _ hg2)) u1 e1 c1
      refine ⟨s, Relation.ReflTransGen.trans ?_ h2, hs⟩
      simpa using h1
  | succ d ih =>
    intro gs hg users errs calls
    obtain ⟨lows1, u1, e1, c1, h1, hl⟩ := lower_depth env fuel d gs hg [] (by simp) users errs calls
    obtain ⟨s, h2, hs⟩ := ih lows1 hl u1 e1 c1
    refine ⟨s, Relation.ReflTransGen.trans ?_ h2, hs⟩
    simpa using h1

theorem startState_finishes (env : Env) (fuel : Nat) (owners : List Str)
    (h : ∀ o ∈ owners, finishesWithin env fuel 3 (.expandowners o) = true) :
    ∃ s, V2.Reaches env fuel (V2.startState env fuel owners) s ∧ s.goroutines = [] := by
  apply settle_all env fuel 2
  intro g hg
  simp only [List.mem_map] at hg
  obtain ⟨o, ho, rfl⟩ := hg
  exact finishesWithin_settles env fuel 2 _ (h o ho)

/-! ## No interleaving runs forever or gets stuck -/

theorem finishesWithin_mono (env : Env) (fuel : Nat) :
    ∀ (d : Nat) (t : Task), finishesWithin env fuel d t = true →
      finishesWithin env fuel (d + 1) t = true := by
  intro d
  induction d with
  | zero => intro t h; simp [finishesWithin] at h
  | succ d ih =>
    intro t h
    unfold finishesWithin at h ⊢
    simp only [Bool.and_eq_true, beq_iff_eq, List.all_eq_true] at h ⊢
    refine ⟨h.1, fun e he => ?_⟩
    have := h.2 e he
    cases e with
    | call c => rfl
    | sendData u => rfl
    | sendErr e => rfl
    | spawn t1 => exact ih t1 this

theorem settles_tail (env : Env) (fuel d : Nat) (e : Event) (evs : List Event) (st : Status)
    (h : settles env fuel d ⟨e :: evs, st⟩) : settles env fuel d ⟨evs, st⟩ :=
  ⟨h.1, fun t ht => h.2 t (List.mem_cons_of_mem _ ht)⟩

theorem settles_spawn (env : Env) (fuel d : Nat) (t : Task) (evs : List Event) (st : Status)
    (h : settles env fuel (d + 1) ⟨.spawn t :: evs, st⟩) :
    settles env fuel (d + 1) (V2.body env fuel t) := by
  have h1 := finishesWithin_settles env fuel d t (h.2 t (List.mem_cons_self _ _))
  exact ⟨h1.1, fun t1 ht1 => finishesWithin_mono env fuel d t1 (h1.2 t1 ht1)⟩

theorem step_settles (env : Env) (fuel d : Nat) (s s1 : V2.State) (h : V2.Step env fuel s s1)
    (hs : ∀ g ∈ s.goroutines, settles env fuel (d + 1) g) :
    ∀ g ∈ s1.goroutines, settles env fuel (d + 1) g := by
  cases h with
  | call pre post c evs st users errs calls =>
    intro g hg
    simp only [List.mem_append, List.mem_cons] at hg hs
    rcases hg with hg | hg | hg
    · exact hs g (Or.inl hg)
    · subst hg; exact settles_tail env fuel _ _ evs st (hs _ (Or.inr (Or.inl rfl)))
    · exact hs g (Or.inr (Or.inr hg))
  | sendData pre post u evs st users errs calls =>
    intro g hg
    simp only [List.mem_append, List.mem_cons] at hg hs
    rcases hg with hg | hg | hg
    · exact hs g (Or.inl hg)
    · subst hg; exact settles_tail env fuel _ _ evs st (hs _ (Or.inr (Or.inl rfl)))
    · exact hs g (Or.inr (Or.inr hg))
  | sendErr pre post e evs st users errs calls =>
    intro g hg
    simp only [List.mem_append, List.mem_cons] at hg hs
    rcases hg with hg | hg | hg
    · exact hs g (Or.inl hg)
    · subst hg; exact settles_tail env fuel _ _ evs st (hs _ (Or.inr (Or.inl rfl)))
    · exact hs g (Or.inr (Or.inr hg))
  | spawn pre post t evs st users errs calls =>
    intro g hg
    have hg : g ∈ pre ∨ g = ⟨evs, st⟩ ∨ g ∈ post ∨ g = V2.body env fuel t := by
      simpa [or_assoc] using hg
    simp only [List.mem_append, List.mem_cons] at hs
    have hold := hs ⟨.spawn t :: evs, st⟩ (Or.inr (Or.inl rfl))
    rcases hg with hg | hg | hg | hg
    · exact hs g (Or.inl hg)
    · subst hg; exact settles_tail env fuel _ _ evs st hold
    · exact hs g (Or.inr (Or.inr hg))
    · subst hg; exact settles_spawn env fuel d t evs st hold
  | done pre post users errs calls =>
    intro g hg
    simp only [List.mem_append, List.mem_cons] at hg hs
    rcases hg with hg | hg
    · exact hs g (Or.inl hg)
    · exact hs g (Or.inr (Or.inr hg))

theorem reaches_settles (env : Env) (fuel d : Nat) (s s1 : V2.State)
    (h : V2.Reaches env fuel s s1) (hs : ∀ g ∈ s.goroutines, settles env fuel (d + 1) g) :
    ∀ g ∈ s1.goroutines, settles env fuel (d + 1) g := by
  induction h with
  | refl => exact hs
  | tail _ hstep ih => exact step_settles env fuel d _ _ hstep ih

theorem startState_completes (env : Env) (fuel : Nat) (owners : List Str)
    (h : ∀ o ∈ owners, finishesWithin env fuel 3 (.expandowners o) = true) (s : V2.State)
    (hs : V2.Reaches env fuel (V2.startState env fuel owners) s) :
    ∃ s1, V2.Reaches env fuel s s1 ∧ s1.goroutines = [] := by
  have h0 : ∀ g ∈ (V2.startState env fuel owners).goroutines, settles env fuel 2 g := by
    intro g hg
    simp only [V2.startState, List.mem_map] at hg
    obtain ⟨o, ho, rfl⟩ := hg
    exact finishesWithin_settles env fuel 2 _ (h o ho)
  have h1 := reaches_settles env fuel 1 _ _ hs h0
  obtain ⟨gs, users, errs, calls⟩ := s
  exact settle_all env fuel 2 gs h1 users errs calls

theorem work_congr (W W1 : Task → Nat) (evs : List Event)
    (h : ∀ t, Event.spawn t ∈ evs → W t = W1 t) : work W evs = work W1 evs := by
  induction evs with
  | nil => rfl
  | cons e evs ih =>
    have ih1 := ih (fun t ht => h t (List.mem_cons_of_mem _ ht))
    cases e with
    | call c => simp [work, ih1]
    | sendData u => simp [work, ih1]
    | sendErr e => simp [work, ih1]
    | spawn t => simp [work, ih1, h t (List.mem_cons_self _ _)]

theorem taskWork_stable (env : Env) (fuel : Nat) :
    ∀ (d : Nat) (t : Task), rank t < d → taskWork env fuel d t = taskWork env fuel (d + 1) t := by
  intro d
  induction d with
  | zero => intro t h; simp at h
  | succ d ih =>
    intro t h
    show 1 + work (taskWork env fuel d) _ = 1 + work (taskWork env fuel (d + 1)) _
    congr 1
    apply work_congr
    intro t1 ht1
    exact ih t1 (by have := spawn_rank env fuel t t1 ht1; omega)

theorem taskWork_eq (env : Env) (fuel : Nat) (t : Task) :
    taskWork env fuel 3 t = 1 + work (taskWork env fuel 3) (V2.body env fuel t).events := by
  have h : rank t < 3 := by cases t <;> simp [rank]
  exact taskWork_stable env fuel 3 t h

theorem step_stepsLeft (env : Env) (fuel : Nat) (s s1 : V2.State) (h : V2.Step env fuel s s1) :
    stepsLeft env fuel s1 + 1 = stepsLeft env fuel s := by
  cases h with
  | call pre post c evs st users errs calls =>
    simp only [stepsLeft, List.map_append, List.map_cons, List.sum_append, List.sum_cons, work]
    omega
  | sendData pre post u evs st users errs calls =>
    simp only [stepsLeft, List.map_append, List.map_cons, List.sum_append, List.sum_cons, work]
    omega
  | sendErr pre post e evs st users errs calls =>
    simp only [stepsLeft, List.map_append, List.map_cons, List.sum_append, List.sum_cons, work]
    omega
  | spawn pre post t evs st users errs calls =>
    simp only [stepsLeft, List.map_append, List.map_cons, List.sum_append, List.sum_cons, work,
      List.map_nil, List.sum_nil]
    have := taskWork_eq env fuel t
    omega
  | done pre post users errs calls =>
    simp only [stepsLeft, List.map_append, List.map_cons, List.sum_append, List.sum_cons, work]
    omega

theorem no_infinite_run (env : Env) (fuel : Nat) (f : Nat → V2.State)
    (h : ∀ n, V2.Step env fuel (f n) (f (n + 1))) : False := by
  have hn : ∀ n, stepsLeft env fuel (f n) + n = stepsLeft env fuel (f 0) := by
    intro n
    induction n with
    | zero => rfl
    | succ n ih =>
      have := step_stepsLeft env fuel _ _ (h n)
      omega
  have := hn (stepsLeft env fuel (f 0) + 1)
  omega

/-! ## What `Match` has received at its end -/

theorem filterMap_add {α β : Type} (f : α → Option β) (s t : Multiset α) :
    Multiset.filterMap f (s + t) = Multiset.filterMap f s + Multiset.filterMap f t := by
  induction s using Multiset.induction_on with
  | empty => simp
  | cons a s ih =>
    rw [Multiset.cons_add]
    cases h : f a with
    | none => rw [Multiset.filterMap_cons_none _ _ h, Multiset.filterMap_cons_none _ _ h, ih]
    | some b =>
      rw [Multiset.filterMap_cons_some _ _ _ h, Multiset.filterMap_cons_some _ _ _ h, ih,
        Multiset.cons_add]

theorem filterMap_list_sum {α β : Type} (f : α → Option β) (l : List (Multiset α)) :
    Multiset.filterMap f l.sum = (l.map (Multiset.filterMap f)).sum := by
  induction l with
  | nil => simp
  | cons a l ih => simp [filterMap_add, ih]

theorem seen_users (s : V2.State) : Multiset.filterMap dataOf (seen s) = ↑s.users := by
  simp only [seen, filterMap_add, Multiset.filterMap_coe, List.filterMap_map]
  have h1 : List.filterMap (dataOf ∘ Event.sendData) s.users = s.users := by
    induction s.users with
    | nil => rfl
    | cons a l ih => simp [List.filterMap_cons, dataOf, ih]
  have h2 : List.filterMap (dataOf ∘ Event.sendErr) s.errorSlices = [] := by
    induction s.errorSlices with
    | nil => rfl
    | cons a l ih => simp [List.filterMap_cons, dataOf, ih]
  have h3 : List.filterMap (dataOf ∘ Event.call) s.calls = [] := by
    induction s.calls with
    | nil => rfl
    | cons a l ih => simp [List.filterMap_cons, dataOf, ih]
  rw [h1, h2, h3]
  simp

theorem seen_errs (s : V2.State) : Multiset.filterMap errOf (seen s) = ↑s.errorSlices := by
  simp only [seen, filterMap_add, Multiset.filterMap_coe, List.filterMap_map]
  have h1 : List.filterMap (errOf ∘ Event.sendData) s.users = [] := by
    induction s.users with
    | nil => rfl
    | cons a l ih => simp [List.filterMap_cons, errOf, ih]
  have h2 : List.filterMap (errOf ∘ Event.sendErr) s.errorSlices = s.errorSlices := by
    induction s.errorSlices with
    | nil => rfl
    | cons a l ih => simp [List.filterMap_cons, errOf, ih]
  have h3 : List.filterMap (errOf ∘ Event.call) s.calls = [] := by
    induction s.calls with
    | nil => rfl
    | cons a l ih => simp [List.filterMap_cons, errOf, ih]
  rw [h1, h2, h3]
  simp

theorem seen_calls (s : V2.State) : Multiset.filterMap callOf (seen s) = ↑s.calls := by
  simp only [seen, filterMap_add, Multiset.filterMap_coe, List.filterMap_map]
  have h1 : List.filterMap (callOf ∘ Event.sendData) s.users = [] := by
    induction s.users with
    | nil => rfl
    | cons a l ih => simp [List.filterMap_cons, callOf, ih]
  have h2 : List.filterMap (callOf ∘ Event.sendErr) s.errorSlices = [] := by
    induction s.errorSlices with
    | nil => rfl
    | cons a l ih => simp [List.filterMap_cons, callOf, ih]
  have h3 : List.filterMap (callOf ∘ Event.call) s.calls = s.calls := by
    induction s.calls with
    | nil => rfl
    | cons a l ih => simp [List.filterMap_cons, callOf, ih]
  rw [h1, h2, h3]
  simp

theorem seen_sum_runs (env : Env) (fuel : Nat) (owners : List Str) (runs : List V2.State)
    (hruns : List.Forall₂
      (fun o r => V2.Reaches env fuel (V2.startState env fuel [o]) r ∧ r.goroutines = [])
      owners runs) :
    (owners.map (fun o => treeEvents env fuel (.expandowners o))).sum = (runs.map seen).sum := by
  induction hruns with
  | nil => rfl
  | @cons o r os rs h _ ih =>
    have := final_seen env fuel [o] r h.1 h.2
    simp only [List.map_cons, List.map_nil, List.sum_cons, List.sum_nil, add_zero] at this
    simp only [List.map_cons, List.sum_cons, ih, this]

/-! ## Fail-open aggregation -/

/-- C10: while `ctx.Done()` does not fire, for every interleaving of the goroutines of
`Match` on the owners `owners` that gets to the end, and for any results `runs` of
resolving each owner on its own, the identities returned are, as a multiset, the sum of
the identities of `runs`, and likewise the errors: a branch that fails takes nothing away
from the others and duplicates are kept. When every expansion returns within the
budget of its loops, every state that `Match` reaches can go on to the end, and no
interleaving goes on forever. -/
theorem C10_fail_open (env : Env) (fuel : Nat) (owners : List Str) :
    (∀ (s : V2.State) (runs : List V2.State),
      V2.Reaches env fuel (V2.startState env fuel owners) s → s.goroutines = [] →
      List.Forall₂
        (fun o r => V2.Reaches env fuel (V2.startState env fuel [o]) r ∧ r.goroutines = [])
        owners runs →
      (↑s.users : Multiset User) = (runs.map (fun r => (↑r.users : Multiset User))).sum ∧
      (↑s.errorSlices : Multiset GoError)
        = (runs.map (fun r => (↑r.errorSlices : Multiset GoError))).sum) ∧
    ((∀ o ∈ owners, finishesWithin env fuel 3 (.expandowners o) = true) →
      ∀ s, V2.Reaches env fuel (V2.startState env fuel owners) s →
        ∃ s1, V2.Reaches env fuel s s1 ∧ s1.goroutines = []) ∧
    (∀ f : Nat → V2.State, f 0 = V2.startState env fuel owners →
      ¬ ∀ n, V2.Step env fuel (f n) (f (n + 1))) := by
  refine ⟨?_, startState_completes env fuel owners,
    fun f _ h => no_infinite_run env fuel f h⟩
  intro s runs hs hfin hruns
  have hseen : seen s = (runs.map seen).sum := by
    rw [final_seen env fuel owners s hs hfin, seen_sum_runs env fuel owners runs hruns]
  constructor
  · rw [← seen_users s, hseen, filterMap_list_sum, List.map_map]
    congr 1
    apply List.map_congr_left
    intro r _
    exact seen_users r
  · rw [← seen_errs s, hseen, filterMap_list_sum, List.map_map]
    congr 1
    apply List.map_congr_left
    intro r _
    exact seen_errs r

/-- C10 at the owners `person@example.org` and `nobody` in the sample environment: one
identity from the first, one error from the second, both kept. -/
theorem C10_fail_open_witness :
    (∀ o ∈ ["person@example.org".toList, "nobody".toList],
      finishesWithin sampleEnv 0 3 (.expandowners o) = true) ∧
    ∃ s r1 r2,
      V2.Reaches sampleEnv 0
        (V2.startState sampleEnv 0 ["person@example.org".toList, "nobody".toList]) s ∧
      s.goroutines = [] ∧
      V2.Reaches sampleEnv 0 (V2.startState sampleEnv 0 ["person@example.org".toList]) r1 ∧
      V2.Reaches sampleEnv 0 (V2.startState sampleEnv 0 ["nobody".toList]) r2 ∧
      (↑s.users : Multiset User) = ([r1, r2].map (fun r => (↑r.users : Multiset User))).sum ∧
      (↑s.errorSlices : Multiset GoError)
        = ([r1, r2].map (fun r => (↑r.errorSlices : Multiset GoError))).sum := by
  obtain ⟨s, hs, hfin⟩ :=
    (C10_fail_open sampleEnv 0 ["person@example.org".toList, "nobody".toList]).2.1 (by decide)
      _ Relation.ReflTransGen.refl
  obtain ⟨r1, h1, hf1⟩ :=
    (C10_fail_open sampleEnv 0 ["person@example.org".toList]).2.1 (by decide)
      _ Relation.ReflTransGen.refl
  obtain ⟨r2, h2, hf2⟩ :=
    (C10_fail_open sampleEnv 0 ["nobody".toList]).2.1 (by decide) _ Relation.ReflTransGen.refl
  have h := (C10_fail_open sampleEnv 0 ["person@example.org".toList, "nobody".toList]).1 s
    [r1, r2] hs hfin (List.Forall₂.cons ⟨h1, hf1⟩ (List.Forall₂.cons ⟨h2, hf2⟩ List.Forall₂.nil))
  exact ⟨by decide, s, r1, r2, hs, hfin, h1, h2, h.1, h.2⟩

/-! ## Email owners -/

theorem email_final (env : Env) (fuel : Nat) (token : Str)
    (hclass : specClassify token = some (.EmailRef token)) (s : V2.State)
    (hs : V2.Reaches env fuel (V2.startState env fuel [token]) s) (hfin : s.goroutines = []) :
    s.calls = [] ∧
      match env.mailParseAddress token with
      | .ok a => s.users = [⟨none, none, some a.Address⟩] ∧ s.errorSlices = []
      | .error e => s.users = [] ∧ s.errorSlices = [.external e] := by
  have hexp : V2.expandowners token = ⟨[.spawn (.finduseremail token)], .returned⟩ := by
    have := expandowners_classify token
    rw [hclass] at this
    exact this.1
  have hseen := final_seen env fuel [token] s hs hfin
  simp only [List.map_cons, List.map_nil, List.sum_cons, List.sum_nil, add_zero] at hseen
  rw [treeEvents_eq] at hseen
  simp only [V2.body, hexp, owed, add_zero] at hseen
  rw [treeEvents_eq] at hseen
  simp only [V2.body, V2.finduseremail] at hseen
  have hu := seen_users s
  have he := seen_errs s
  have hc := seen_calls s
  cases hp : env.mailParseAddress token with
  | ok a =>
    rw [hp] at hseen
    simp only [owed] at hseen
    rw [hseen] at hu he hc
    simp only [Multiset.cons_zero] at hu he hc
    refine ⟨?_, ?_, ?_⟩
    · have : (↑s.calls : Multiset Call) = 0 := by
        rw [← hc]; rfl
      exact (Multiset.coe_eq_zero _).mp this
    · have : (↑s.users : Multiset User) = {⟨none, none, some a.Address⟩} := by
        rw [← hu]; rfl
      exact Multiset.coe_eq_singleton.mp this
    · have : (↑s.errorSlices : Multiset GoError) = 0 := by
        rw [← he]; rfl
      exact (Multiset.coe_eq_zero _).mp this
  | error e =>
    rw [hp] at hseen
    simp only [owed] at hseen
    rw [hseen] at hu he hc
    simp only [Multiset.cons_zero] at hu he hc
    refine ⟨?_, ?_, ?_⟩
    · have : (↑s.calls : Multiset Call) = 0 := by
        rw [← hc]; rfl
      exact (Multiset.coe_eq_zero _).mp this
    · have : (↑s.users : Multiset User) = 0 := by
        rw [← hu]; rfl
      exact (Multiset.coe_eq_zero _).mp this
    · have : (↑s.errorSlices : Multiset GoError) = {.external e} := by
        rw [← he]; rfl
      exact Multiset.coe_eq_singleton.mp this

theorem email_finishes (env : Env) (fuel : Nat) (token : Str)
    (hclass : specClassify token = some (.EmailRef token)) :
    finishesWithin env fuel 3 (.expandowners token) = true := by
  have hexp : V2.expandowners token = ⟨[.spawn (.finduseremail token)], .returned⟩ := by
    have := expandowners_classify token
    rw [hclass] at this
    exact this.1
  have hleaf : finishesWithin env fuel 2 (.finduseremail token) = true := by
    unfold finishesWithin
    simp only [V2.body, V2.finduseremail]
    split <;> simp
  unfold finishesWithin
  simp only [V2.body, hexp]
  simp [hleaf]

/-- C9 as the code has it: for a token classified as an email reference, `Match` on that
one owner gets to its end, and at every end it has made no directory request; when
`mail.ParseAddress` accepts the token it has received no error and exactly one identity,
whose email is the `Address` field of the parsed address and whose login and id are
unset; when `mail.ParseAddress` rejects the token it has received no identity and
exactly that one error. -/
theorem C9_email_identity (env : Env) (fuel : Nat) (token : Str)
    (hclass : specClassify token = some (.EmailRef token)) :
    (∃ s, V2.Reaches env fuel (V2.startState env fuel [token]) s ∧ s.goroutines = []) ∧
    ∀ s, V2.Reaches env fuel (V2.startState env fuel [token]) s → s.goroutines = [] →
      s.calls = [] ∧
        match env.mailParseAddress token with
        | .ok a => s.users = [⟨none, none, some a.Address⟩] ∧ s.errorSlices = []
        | .error e => s.users = [] ∧ s.errorSlices = [.external e] :=
  ⟨startState_finishes env fuel [token]
      (fun o ho => by
        rw [List.mem_singleton] at ho
        subst ho
        exact email_finishes env fuel o hclass),
    fun s hs hfin => email_final env fuel token hclass s hs hfin⟩

/-- C9 at the token `person@example.org` in the sample environment. -/
theorem C9_email_identity_witness :
    specClassify "person@example.org".toList = some (.EmailRef "person@example.org".toList) ∧
    ∃ s, V2.Reaches sampleEnv 0 (V2.startState sampleEnv 0 ["person@example.org".toList]) s ∧
      s.goroutines = [] :=
  ⟨by decide, (C9_email_identity sampleEnv 0 "person@example.org".toList (by decide)).1⟩

/-- C9 as stated fails at the token `<a@b.c>`: it is classified as an email reference and
`mail.ParseAddress` accepts it, but the identity sent carries the parsed address
`a@b.c`, not the whole token. -/
theorem C9_email_not_whole_token :
    specClassify "<a@b.c>".toList = some (.EmailRef "<a@b.c>".toList) ∧
    sampleEnv.mailParseAddress "<a@b.c>".toList = .ok ⟨[], "a@b.c".toList⟩ ∧
    V2.finduseremail sampleEnv "<a@b.c>".toList =
      ⟨[.sendData ⟨none, none, some "a@b.c".toList⟩], .returned⟩ ∧
    ¬ (V2.finduseremail sampleEnv "<a@b.c>".toList).events =
      [.sendData ⟨none, none, some "<a@b.c>".toList⟩] :=
  ⟨by decide, rfl, by decide, by decide⟩

end GoCodeowners
